import Mathlib

/-!
Verification of the image-optimizer variant pipeline (`src/index.ts`).

The development shallowly embeds the pipeline's pure core:

* path helpers (`getOutputFilename`, `isImageFile`) with JavaScript
  `slice` / `lastIndexOf` semantics,
* the staleness detector `needsProcessing`,
* the variant generator `processImage` (with an abstract per-file codec
  success predicate `encodeOK`),
* the batch orchestrator `processAllImages` with its single-flight guard,
* the on-the-fly resolver `optimizeOnTheFly` and the HTTP route handler
  `handleRequest`.

File systems are association lists mapping relative paths to modification
times (output tree) or to file metadata (input tree); every write during a
run happens at an abstract clock value `now`.  JavaScript numbers appearing
in `Math.round(targetWidth * aspectRatio)` are modelled as exact rationals.
-/

set_option maxHeartbeats 1000000

/-- Intrinsic image metadata as reported by the codec probe
(`sharp(path).metadata()`): width, height, and the detected source format.
A width or height of `0` models a falsy `metadata.width`/`metadata.height`. -/
structure ImgMeta where
  width : Nat
  height : Nat
  fmt : Option String
deriving DecidableEq, Repr

/-- An input-tree file: its modification time and, when the codec can read
it, its metadata (`none` models a file `sharp` fails to probe). -/
structure FileInfo where
  mtime : Nat
  meta : Option ImgMeta
deriving DecidableEq, Repr

/-- One generated rendition recorded in the manifest
(`ImageManifestEntry["variants"]` element in `src/index.ts`). -/
structure Variant where
  format : String
  size : Nat
  path : String
  width : Nat
  height : Int
deriving DecidableEq, Repr

/-- Per-original manifest entry (`ImageManifestEntry` in `src/index.ts`). -/
structure ManifestEntry where
  original : String
  width : Nat
  height : Nat
  variants : List Variant
deriving DecidableEq, Repr

/-- The in-memory manifest `images` table: relative path to entry. -/
abbrev Manifest := List (String × ManifestEntry)

/-- The output tree: relative path to modification time. -/
abbrev OutFS := List (String × Nat)

/-- The input tree: relative path to file info. -/
abbrev InFS := List (String × FileInfo)

/-- Lookup in the manifest (`manifest.images[relativePath]`). -/
def mFind (m : Manifest) (p : String) : Option ManifestEntry :=
  (m.find? (fun e => e.1 == p)).map (fun e => e.2)

/-- Whole-entry replacement (`manifest.images[relativePath] = entry`);
a prepend shadows any previous binding. -/
def mInsert (m : Manifest) (p : String) (e : ManifestEntry) : Manifest :=
  (p, e) :: m

/-- Lookup in a path-to-mtime file system (`stat`/`fileExists`). -/
def fsFind (fs : OutFS) (p : String) : Option Nat :=
  (fs.find? (fun e => e.1 == p)).map (fun e => e.2)

/-- Writing a file at clock value `t`; a prepend shadows any previous file. -/
def fsWrite (fs : OutFS) (p : String) (t : Nat) : OutFS :=
  (p, t) :: fs

/-- Lookup in the input tree. -/
def fiFind (fs : InFS) (p : String) : Option FileInfo :=
  (fs.find? (fun e => e.1 == p)).map (fun e => e.2)

/-- Plugin configuration after defaulting (the `config` object built by
`ImageOptimizerPlugin`), restricted to the fields the pipeline reads. -/
structure Config where
  formats : List String
  sizes : List Nat
  quality : Nat
  skipExisting : Bool
  keepOriginal : Bool
  generateManifest : Bool
deriving Repr

/-- Index of the last occurrence of `c`, counted from the front
(`String.prototype.lastIndexOf` restricted to a one-character needle,
before the `-1` encoding). -/
def lastIdx (c : Char) : List Char → Option Nat
  | [] => none
  | a :: as =>
    match lastIdx c as with
    | some i => some (i + 1)
    | none => if a = c then some 0 else none

/-- JavaScript `s.lastIndexOf(c)`: the index of the last occurrence,
or `-1` when absent. -/
def jsLastIndexOf (c : Char) (s : List Char) : Int :=
  match lastIdx c s with
  | some i => (i : Int)
  | none => -1

/-- JavaScript `s.slice(0, e)`: a negative `e` counts from the end and is
clamped at `0` (`Int.toNat` of a negative number is `0`). -/
def jsSliceTo (s : List Char) (e : Int) : List Char :=
  if e < 0 then s.take (((s.length : Int) + e).toNat) else s.take e.toNat

/-- JavaScript `s.slice(i)`: a negative `i` counts from the end and is
clamped at `0`. -/
def jsSliceFrom (s : List Char) (i : Int) : List Char :=
  if i < 0 then s.drop (((s.length : Int) + i).toNat) else s.drop i.toNat

/-- Embedding of `getOutputFilename` from `src/index.ts`:
`originalName.slice(0, originalName.lastIndexOf("."))` followed by
`-{width}w.{format}`. -/
def getOutputFilename (originalName : String) (width : Nat) (format : String) : String :=
  let cs := originalName.toList
  let baseName := String.mk (jsSliceTo cs (jsLastIndexOf '.' cs))
  baseName ++ "-" ++ toString width ++ "w." ++ format

/-- Embedding of `SUPPORTED_EXTENSIONS` from `src/index.ts`. -/
def supportedExtensions : List String :=
  [".jpg", ".jpeg", ".png", ".gif", ".webp", ".avif", ".tiff", ".svg"]

/-- Embedding of `isImageFile` from `src/index.ts`:
`filename.toLowerCase().slice(filename.lastIndexOf("."))` membership in
the supported-extension set. -/
def isImageFile (filename : String) : Bool :=
  let cs := filename.toList
  let lower := cs.map Char.toLower
  let ext := String.mk (jsSliceFrom lower (jsLastIndexOf '.' cs))
  supportedExtensions.contains ext

/-- Embedding of `Math.round(targetWidth * aspectRatio)` with
`aspectRatio = originalHeight / originalWidth`, over exact rationals.
Stated as the equivalent natural-number computation
`⌊(2·w·H + W) / (2·W)⌋` so that it evaluates by kernel reduction;
`variantHeight_eq_round` proves it equal to round-half-up of
`w * (H / W)` over `ℚ`, which is what `Math.round` computes on the
non-negative values occurring here. -/
def variantHeight (w W H : Nat) : Int :=
  ((2 * w * H + W) / (2 * W) : Nat)

/-- The executable `variantHeight` is exactly `Math.round(w * (H / W))`
over exact rationals (round half up). -/
theorem variantHeight_eq_round (w W H : Nat) (hW : W ≠ 0) :
    variantHeight w W H = round ((w : ℚ) * ((H : ℚ) / (W : ℚ))) := by
  have h1 : (w : ℚ) * ((H : ℚ) / (W : ℚ)) = ((w * H : ℕ) : ℚ) / ((W : ℕ) : ℚ) := by
    push_cast; ring
  have hW0 : ((W : ℚ)) ≠ 0 := by exact_mod_cast hW
  rw [h1, round_eq]
  have h2 : ((w * H : ℕ) : ℚ) / ((W : ℕ) : ℚ) + 1 / 2
      = (((2 * w * H + W : ℕ) : ℚ)) / (((2 * W : ℕ) : ℚ)) := by
    push_cast
    field_simp
    ring
  rw [h2, Rat.floor_natCast_div_natCast]
  simp [variantHeight]

/-- The variant record pushed for target width `pr.1` and format `pr.2`
(both branches of the inner loop of `processImage` push this value). -/
def mkVariant (p : String) (W H : Nat) (pr : Nat × String) : Variant :=
  { format := pr.2
    size := pr.1
    path := getOutputFilename p pr.1 pr.2
    width := pr.1
    height := variantHeight pr.1 W H }

/-- The (width, format) pairs the nested loops of `processImage` reach:
configured sizes with `targetWidth > originalWidth` are skipped, each
retained size is paired with every configured format, in order. -/
def retainedPairs (cfg : Config) (W : Nat) : List (Nat × String) :=
  (cfg.sizes.filter (fun w => decide (w ≤ W))).flatMap
    (fun w => cfg.formats.map (fun f => (w, f)))

/-- The complete variant list `processImage` records for an original of
intrinsic size `W × H` when no encode fails. -/
def successVariants (cfg : Config) (p : String) (W H : Nat) : List Variant :=
  (retainedPairs cfg W).map (mkVariant p W H)

/-- The manifest entry `processImage` installs on success. -/
def successEntry (cfg : Config) (p : String) (W H : Nat) : ManifestEntry :=
  { original := p, width := W, height := H, variants := successVariants cfg p W H }

/-- Accumulator threaded through the nested size × format loops of
`processImage`: the output tree, the variant list built so far, and the
number of encode operations (`pipeline.toFile`) performed. -/
structure VarAcc where
  outFS : OutFS
  vars : List Variant
  encodes : Nat
deriving Repr

/-- The nested loops of `processImage` over the retained (width, format)
pairs.  For each pair: if `skipExisting` is set and the output file exists,
the variant is recorded without re-encoding; otherwise the codec encodes
and writes the file at clock `now` (an encode operation).  `encodeOK`
tells whether `pipeline.toFile` succeeds for a given output filename; a
failure throws, so the loop stops and the flag `false` is returned with
the state accumulated so far (earlier writes persist). -/
def encodeVariants (cfg : Config) (p : String) (W H now : Nat)
    (encodeOK : String → Bool) : List (Nat × String) → VarAcc → Bool × VarAcc
  | [], acc => (true, acc)
  | pr :: rest, acc =>
    let name := getOutputFilename p pr.1 pr.2
    let v := mkVariant p W H pr
    if cfg.skipExisting && (fsFind acc.outFS name).isSome then
      encodeVariants cfg p W H now encodeOK rest { acc with vars := acc.vars ++ [v] }
    else if encodeOK name then
      encodeVariants cfg p W H now encodeOK rest
        { outFS := fsWrite acc.outFS name now
          vars := acc.vars ++ [v]
          encodes := acc.encodes + 1 }
    else
      (false, acc)

/-- The mutable state `processImage` reads and writes: the output tree,
the manifest, and a running count of encode operations. -/
structure ProcState where
  outFS : OutFS
  manifest : Manifest
  encodes : Nat
deriving Repr

/-- Embedding of `processImage` from `src/index.ts`.  Probes the source's metadata
(unreadable source or falsy dimensions: log an error and leave the state
unchanged); runs the nested loops; on completion optionally copies the
original into the output tree (`keepOriginal`) and replaces the manifest
entry with the freshly computed one; if any encode threw, the `catch`
logs the error and the manifest is left untouched. -/
def processImage (cfg : Config) (inputFS : InFS) (now : Nat)
    (encodeOK : String → Bool) (p : String) (st : ProcState) : ProcState :=
  match fiFind inputFS p with
  | none => st
  | some fi =>
    match fi.meta with
    | none => st
    | some m =>
      if m.width == 0 || m.height == 0 then st
      else
        let r := encodeVariants cfg p m.width m.height now encodeOK
          (retainedPairs cfg m.width) ⟨st.outFS, [], 0⟩
        if r.1 then
          let fs1 := if cfg.keepOriginal then fsWrite r.2.outFS p now else r.2.outFS
          { outFS := fs1
            manifest := mInsert st.manifest p
              ⟨p, m.width, m.height, r.2.vars⟩
            encodes := st.encodes + r.2.encodes }
        else
          { outFS := r.2.outFS, manifest := st.manifest
            encodes := st.encodes + r.2.encodes }

/-- Embedding of `needsProcessing` from `src/index.ts`: no manifest entry or zero
variants, a missing output file, a missing source (`stat` throws), or a
source modification time strictly newer than the first variant's output
file make the image stale (`true`); otherwise it is fresh (`false`). -/
def needsProcessing (inputFS : InFS) (outFS : OutFS) (manifest : Manifest)
    (p : String) : Bool :=
  match mFind manifest p with
  | none => true
  | some entry =>
    if entry.variants.isEmpty then true
    else if entry.variants.any (fun v => (fsFind outFS v.path).isNone) then true
    else
      match fiFind inputFS p with
      | none => true
      | some fi =>
        match entry.variants.head? with
        | none => true
        | some v0 =>
          match fsFind outFS v0.path with
          | none => true
          | some t0 => decide (t0 < fi.mtime)

/-- The batch orchestrator's state: output tree, manifest, the
single-flight guard `isProcessing`, and the running encode count. -/
structure BatchState where
  outFS : OutFS
  manifest : Manifest
  isProcessing : Bool
  encodes : Nat
deriving Repr

/-- The `for (const file of filesToProcess) await processImage(file)`
loop of `processAllImages`. -/
def runBatch (cfg : Config) (inputFS : InFS) (now : Nat)
    (encodeOK : String → Bool) (files : List String) (ps : ProcState) : ProcState :=
  files.foldl (fun s f => processImage cfg inputFS now encodeOK f s) ps

/-- Embedding of `processAllImages` from `src/index.ts`.  A set guard makes the call a
no-op; otherwise the guard is set, the body runs inside `try`/`catch`
(missing input directory, a failed directory scan, no images found, and
nothing stale are early returns; `scanned` is the result of the recursive
`readdir` scan), and the `finally` clears the guard on every exit path. -/
def processAllImages (cfg : Config) (inputFS : InFS) (inputDirExists : Bool)
    (scanned : Except Unit (List String)) (now : Nat)
    (encodeOK : String → Bool) (forceAll : Bool) (st : BatchState) : BatchState :=
  if st.isProcessing then st
  else
    let body : BatchState :=
      if !inputDirExists then st
      else
        match scanned with
        | .error _ => st
        | .ok imageFiles =>
          if imageFiles.isEmpty then st
          else
            let filesToProcess :=
              if forceAll then imageFiles
              else imageFiles.filter (needsProcessing inputFS st.outFS st.manifest)
            if !forceAll && filesToProcess.isEmpty then st
            else
              let ps := runBatch cfg inputFS now encodeOK filesToProcess
                ⟨st.outFS, st.manifest, st.encodes⟩
              let fs1 :=
                if cfg.generateManifest then fsWrite ps.outFS "manifest.json" now
                else ps.outFS
              { outFS := fs1, manifest := ps.manifest
                isProcessing := st.isProcessing, encodes := ps.encodes }
    { body with isProcessing := false }

/-- Result of `optimizeOnTheFly`'s codec pipeline: the response content
type and the transform that produced the buffer (target dimensions and
which encoder, if any, was applied; `encodedAs = none` is the `default`
switch branch that keeps the source format). -/
structure OTF where
  contentType : String
  width : Nat
  height : Int
  encodedAs : Option String
deriving DecidableEq, Repr

/-- Embedding of `optimizeOnTheFly` from `src/index.ts`: `null` for a missing source,
an unreadable probe, or falsy dimensions; otherwise resize to the
requested (or intrinsic) width with derived height and switch on the
format string, keeping the source format on an unrecognized one. -/
def optimizeOnTheFly (inputFS : InFS) (relativePath : String)
    (width : Option Nat) (format : String) (quality : Nat) : Option OTF :=
  match fiFind inputFS relativePath with
  | none => none
  | some fi =>
    match fi.meta with
    | none => none
    | some m =>
      if m.width == 0 || m.height == 0 then none
      else
        let targetWidth := width.getD m.width
        let targetHeight := variantHeight targetWidth m.width m.height
        if format == "webp" then
          some ⟨"image/webp", targetWidth, targetHeight, some "webp"⟩
        else if format == "avif" then
          some ⟨"image/avif", targetWidth, targetHeight, some "avif"⟩
        else if format == "jpeg" || format == "jpg" then
          some ⟨"image/jpeg", targetWidth, targetHeight, some "jpeg"⟩
        else if format == "png" then
          some ⟨"image/png", targetWidth, targetHeight, some "png"⟩
        else
          some ⟨"image/" ++ m.fmt.getD "jpeg", targetWidth, targetHeight, none⟩

/-- The alternation `webp|avif|jpeg|jpg|png` of the variant-filename
pattern, in source order. -/
def extCandidates : List String := ["webp", "avif", "jpeg", "jpg", "png"]

/-- Case-insensitive suffix test (`suf` is given lowercase). -/
def isSuffixOfCI (suf s : List Char) : Bool :=
  List.isSuffixOf suf (s.map Char.toLower)

/-- Embedding of `parseInt` on a non-empty, all-digit capture. -/
def digitsToNat (ds : List Char) : Nat :=
  ds.foldl (fun n c => n * 10 + (c.toNat - '0'.toNat)) 0

/-- The route handler's test
`relativePath.match(/^(.+)-(\d+)w\.(webp|avif|jpeg|jpg|png)$/i)`,
returning the three captures `(basePath, width, format)`.  Parsed from
the end: a case-insensitive extension from the alternation, a literal
`.`, a literal `w`, the maximal non-empty digit run, a literal `-`, and
a non-empty base — which is exactly what the anchored regex with a
greedy `(.+)` matches.  Captures keep the original casing. -/
def variantMatch (s : String) : Option (String × Nat × String) :=
  let cs := s.toList
  match extCandidates.find? (fun e => isSuffixOfCI ('.' :: e.toList) cs) with
  | none => none
  | some e =>
    let rest := cs.take (cs.length - (e.length + 1))
    let fmtCap := String.mk (cs.drop (cs.length - e.length))
    match rest.reverse with
    | [] => none
    | wch :: restR =>
      if wch.toLower == 'w' then
        let digitsR := restR.takeWhile Char.isDigit
        let afterR := restR.drop digitsR.length
        if digitsR.isEmpty then none
        else
          match afterR with
          | [] => none
          | d :: baseR =>
            if d == '-' && !baseR.isEmpty then
              some (String.mk baseR.reverse, digitsToNat digitsR.reverse, fmtCap)
            else none
      else none

/-- The route handler's search for the original behind a variant-pattern
URL: try `.jpg`, `.jpeg`, `.png`, `.webp`, `.avif` against the input
tree in order; first existing file wins. -/
def findOriginal (inputFS : InFS) (basePath : String) : Option String :=
  ([".jpg", ".jpeg", ".png", ".webp", ".avif"].find?
    (fun ext => (fiFind inputFS (basePath ++ ext)).isSome)).map
    (fun ext => basePath ++ ext)

/-- An inbound request to `{publicPath}/*` after stripping the public
path: the relative path and the `w`, `format`, `q` query parameters. -/
structure Req where
  path : String
  w : Option Nat
  fmt : Option String
  q : Option Nat
deriving DecidableEq, Repr

/-- The observable response of the route handler: a 404, a 500, a file
served from the output tree, a file served from the input tree, or a
freshly generated buffer (recording whether the
`X-Image-Optimized: on-the-fly` header is present). -/
inductive Response where
  | notFound
  | error500
  | fileOut (path : String) (cacheControl : String)
  | fileIn (path : String) (cacheControl : String)
  | generated (contentType : String) (cacheControl : String) (onTheFlyHeader : Bool)
deriving DecidableEq, Repr

/-- A route-handler outcome: the response, the resulting output tree,
and how many codec invocations the request performed. -/
structure HandleResult where
  response : Response
  outFS : OutFS
  codecCalls : Nat
deriving DecidableEq, Repr

/-- The `Cache-Control` value of immutable variant responses. -/
def ccImmutable : String := "public, max-age=31536000, immutable"

/-- The `Cache-Control` value of original and query-generated responses. -/
def ccDay : String := "public, max-age=86400"

/-- The `serverConfig.routes` handler for `{publicPath}/*` from
`src/index.ts`.  Variant-pattern URLs are served from the output tree
when present, else generated from a discovered original, written back to
the output tree, and served without the on-the-fly header.  Other URLs:
with no query parameter, serve the file from output, else input, else
404; with any of `w`/`format`/`q` present, always generate on the fly,
do not write to disk, and set `X-Image-Optimized: on-the-fly`. -/
def handleRequest (cfg : Config) (inputFS : InFS) (outFS : OutFS) (now : Nat)
    (req : Req) : HandleResult :=
  if !isImageFile req.path then ⟨.notFound, outFS, 0⟩
  else
    match variantMatch req.path with
    | some (basePath, width, format) =>
      match fsFind outFS req.path with
      | some _ => ⟨.fileOut req.path ccImmutable, outFS, 0⟩
      | none =>
        match findOriginal inputFS basePath with
        | none => ⟨.notFound, outFS, 0⟩
        | some originalPath =>
          match optimizeOnTheFly inputFS originalPath (some width) format cfg.quality with
          | none => ⟨.error500, outFS, 0⟩
          | some r =>
            ⟨.generated r.contentType ccImmutable false, fsWrite outFS req.path now, 1⟩
    | none =>
      if req.w.isNone && req.fmt.isNone && req.q.isNone then
        match fsFind outFS req.path with
        | some _ => ⟨.fileOut req.path ccImmutable, outFS, 0⟩
        | none =>
          match fiFind inputFS req.path with
          | some _ => ⟨.fileIn req.path ccDay, outFS, 0⟩
          | none => ⟨.notFound, outFS, 0⟩
      else
        let format := req.fmt.getD (cfg.formats.headD "webp")
        let quality := req.q.getD cfg.quality
        match optimizeOnTheFly inputFS req.path req.w format quality with
        | none => ⟨.error500, outFS, 0⟩
        | some r => ⟨.generated r.contentType ccDay true, outFS, 1⟩

/-! ## Basic lemmas about the file-system and manifest maps -/

theorem mFind_insert_self (m : Manifest) (p : String) (e : ManifestEntry) :
    mFind (mInsert m p e) p = some e := by
  simp [mFind, mInsert, List.find?]

theorem mFind_insert_ne (m : Manifest) (p : String) (e : ManifestEntry)
    (q : String) (h : q ≠ p) : mFind (mInsert m p e) q = mFind m q := by
  simp only [mFind, mInsert, List.find?]
  rw [show (p == q) = false by simp [Ne.symm h]]

theorem fsFind_write_self (fs : OutFS) (p : String) (t : Nat) :
    fsFind (fsWrite fs p t) p = some t := by
  simp [fsFind, fsWrite, List.find?]

theorem fsFind_write_ne (fs : OutFS) (p : String) (t : Nat)
    (q : String) (h : q ≠ p) : fsFind (fsWrite fs p t) q = fsFind fs q := by
  simp only [fsFind, fsWrite, List.find?]
  rw [show (p == q) = false by simp [Ne.symm h]]

theorem fsFind_write_cases (fs : OutFS) (p : String) (t : Nat) (q : String) :
    fsFind (fsWrite fs p t) q = fsFind fs q ∨ fsFind (fsWrite fs p t) q = some t := by
  by_cases hq : q = p
  · subst hq; right; exact fsFind_write_self fs q t
  · left; exact fsFind_write_ne fs p t q hq

theorem fsFind_write_isSome (fs : OutFS) (p : String) (t : Nat) (q : String)
    (h : (fsFind fs q).isSome = true) :
    (fsFind (fsWrite fs p t) q).isSome = true := by
  by_cases hq : q = p
  · subst hq; rw [fsFind_write_self]; rfl
  · rw [fsFind_write_ne fs p t q hq]; exact h

theorem fsFind_write_now (fs : OutFS) (p : String) (t : Nat) (q : String)
    (h : fsFind fs q = some t) : fsFind (fsWrite fs p t) q = some t := by
  rcases fsFind_write_cases fs p t q with hc | hc
  · rw [hc]; exact h
  · exact hc

/-! ## String lemmas for the path resolver -/

theorem lastIdx_eq_none (c : Char) (l : List Char) (h : c ∉ l) :
    lastIdx c l = none := by
  induction l with
  | nil => rfl
  | cons a as ih =>
    simp only [List.mem_cons, not_or] at h
    simp only [lastIdx, ih h.2]
    rw [if_neg (fun hac => h.1 hac.symm)]

theorem lastIdx_append_last (c : Char) (xs ys : List Char) (h : c ∉ ys) :
    lastIdx c (xs ++ c :: ys) = some xs.length := by
  induction xs with
  | nil =>
    simp [List.nil_append, lastIdx, lastIdx_eq_none c ys h]
  | cons a as ih =>
    simp only [List.cons_append, lastIdx, List.append_eq, ih, List.length_cons]

theorem string_toList_append (a b : String) :
    (a ++ b).toList = a.toList ++ b.toList := by
  cases a; cases b; rfl

theorem string_mk_toList (s : String) : String.mk s.toList = s := by
  cases s; rfl

/-! ## Claim C7: `getOutputFilename` -/

/-- Claim C7 counterexample: on an input with no extension the function
does not treat the whole basename as the stem; `slice(0, -1)` drops the
final character, so `"noext"` yields `"noex-320w.webp"`, not
`"noext-320w.webp"`. -/
theorem claimC7_counterexample :
    getOutputFilename "noext" 320 "webp" = "noex-320w.webp" ∧
    getOutputFilename "noext" 320 "webp" ≠ "noext-320w.webp" := by
  decide

/-- Claim C7 (amended): `getOutputFilename` strips the extension after
the last dot and appends `-{width}w.{format}`; it is pure and total, and
on an input with no extension it does not crash but uses the name minus
its final character as the stem (`lastIndexOf` yields `-1` and
`slice(0, -1)` drops the last character). -/
theorem claimC7_amended :
    (∀ (stem ext : String) (w : Nat) (fmt : String), '.' ∉ ext.toList →
      getOutputFilename (stem ++ "." ++ ext) w fmt
        = stem ++ "-" ++ toString w ++ "w." ++ fmt)
    ∧ (∀ (nm : String) (w : Nat) (fmt : String), '.' ∉ nm.toList →
      getOutputFilename nm w fmt
        = String.mk (nm.toList.take (nm.toList.length - 1))
            ++ "-" ++ toString w ++ "w." ++ fmt) := by
  constructor
  · intro stem ext w fmt h
    have hdot : (("." : String)).toList = ['.'] := by decide
    have hcs : (stem ++ "." ++ ext).toList = stem.toList ++ '.' :: ext.toList := by
      rw [string_toList_append, string_toList_append, hdot]; simp
    simp only [getOutputFilename, jsLastIndexOf, hcs,
      lastIdx_append_last '.' stem.toList ext.toList h, jsSliceTo]
    rw [if_neg (by omega)]
    rw [show ((stem.toList.length : Int)).toNat = stem.toList.length by omega]
    rw [List.take_left, string_mk_toList]
  · intro nm w fmt h
    simp only [getOutputFilename, jsLastIndexOf,
      lastIdx_eq_none '.' nm.toList h, jsSliceTo]
    rw [if_pos (by decide)]
    rw [show (((nm.toList.length : Int)) + (-1 : Int)).toNat
        = nm.toList.length - 1 by omega]

/-- Claim C7 amended, witness: a concrete extensionless input. -/
theorem claimC7_amended_witness :
    ('.' ∉ ("jpg" : String).toList ∧ '.' ∉ ("noext" : String).toList) ∧
    (getOutputFilename ("photo" ++ "." ++ "jpg") 640 "avif"
        = "photo" ++ "-" ++ toString 640 ++ "w." ++ "avif"
      ∧ getOutputFilename "noext" 320 "webp"
        = String.mk (("noext" : String).toList.take
            (("noext" : String).toList.length - 1))
            ++ "-" ++ toString 320 ++ "w." ++ "webp") :=
  ⟨⟨by decide, by decide⟩,
    claimC7_amended.1 "photo" "jpg" 640 "avif" (by decide),
    claimC7_amended.2 "noext" 320 "webp" (by decide)⟩

/-! ## Claim C8: the single-flight guard -/

/-- Claim C8: `processAllImages` is single-flight.  With the guard
already set, a call is a no-op returning the state untouched (manifest,
files and encode count included); with the guard clear, every exit path
— early returns for a missing input directory, a failed or empty scan,
nothing stale, the full run, and the caught error path — leaves the
guard cleared. -/
theorem claimC8 (cfg : Config) (inputFS : InFS) (dirEx : Bool)
    (scanned : Except Unit (List String)) (now : Nat)
    (encodeOK : String → Bool) (force : Bool) (st : BatchState) :
    (processAllImages cfg inputFS dirEx scanned now encodeOK force
        { st with isProcessing := true } = { st with isProcessing := true })
    ∧ (processAllImages cfg inputFS dirEx scanned now encodeOK force
        { st with isProcessing := false }).isProcessing = false := by
  constructor
  · simp [processAllImages]
  · simp [processAllImages]

/-! ## Lemmas about the variant-generation loops -/

theorem mem_retainedPairs_le {cfg : Config} {W : Nat} {pr : Nat × String}
    (h : pr ∈ retainedPairs cfg W) : pr.1 ≤ W := by
  simp only [retainedPairs, List.mem_flatMap, List.mem_filter, List.mem_map] at h
  obtain ⟨w, ⟨_, hw⟩, f, _, rfl⟩ := h
  exact of_decide_eq_true hw

/-- When a loop iteration aborts, the accumulated variant list is exactly
the map over the processed pairs; completion (`fst = true`) yields the
full map. -/
theorem encodeVariants_vars_of_fst (cfg : Config) (p : String) (W H now : Nat)
    (encodeOK : String → Bool) :
    ∀ (pairs : List (Nat × String)) (acc : VarAcc),
      (encodeVariants cfg p W H now encodeOK pairs acc).1 = true →
      (encodeVariants cfg p W H now encodeOK pairs acc).2.vars
        = acc.vars ++ pairs.map (mkVariant p W H) := by
  intro pairs
  induction pairs with
  | nil => intro acc _; simp [encodeVariants]
  | cons pr rest ih =>
    intro acc hf
    by_cases hskip : (cfg.skipExisting
        && (fsFind acc.outFS (getOutputFilename p pr.1 pr.2)).isSome) = true
    · simp only [encodeVariants, hskip, if_true] at hf ⊢
      rw [ih _ hf]
      simp
    · by_cases henc : encodeOK (getOutputFilename p pr.1 pr.2) = true
      · simp only [encodeVariants, hskip, Bool.false_eq_true, if_false, henc,
          if_true] at hf ⊢
        rw [ih _ hf]
        simp
      · simp only [encodeVariants, hskip, Bool.false_eq_true, if_false, henc,
          if_false] at hf

/-- With an always-succeeding codec the loop completes. -/
theorem encodeVariants_fst (cfg : Config) (p : String) (W H now : Nat)
    (encodeOK : String → Bool) (henc : ∀ n, encodeOK n = true) :
    ∀ (pairs : List (Nat × String)) (acc : VarAcc),
      (encodeVariants cfg p W H now encodeOK pairs acc).1 = true := by
  intro pairs
  induction pairs with
  | nil => intro acc; rfl
  | cons pr rest ih =>
    intro acc
    by_cases hskip : (cfg.skipExisting
        && (fsFind acc.outFS (getOutputFilename p pr.1 pr.2)).isSome) = true
    · simp only [encodeVariants, hskip, if_true]; exact ih _
    · simp only [encodeVariants, hskip, Bool.false_eq_true, if_false,
        henc (getOutputFilename p pr.1 pr.2), if_true]
      exact ih _

/-- Claim C1 counterexample: configuration sizes `[320, 640]`, format
`webp`, an original `img.jpg` of width 1000, and a codec that fails only
on the 320-wide variant.  The claim predicts the 640-wide variant is
still generated and the entry keeps the remaining variants; the code
instead aborts the whole original: no manifest entry is written and the
640-wide file (whose encode would succeed) is never produced. -/
theorem claimC1_counterexample :
    (processImage ⟨["webp"], [320, 640], 80, true, false, true⟩
        [("img.jpg", ⟨1, some ⟨1000, 500, some "jpeg"⟩⟩)] 5
        (fun n => !(n == "img-320w.webp")) "img.jpg" ⟨[], [], 0⟩).manifest = []
    ∧ fsFind (processImage ⟨["webp"], [320, 640], 80, true, false, true⟩
        [("img.jpg", ⟨1, some ⟨1000, 500, some "jpeg"⟩⟩)] 5
        (fun n => !(n == "img-320w.webp")) "img.jpg" ⟨[], [], 0⟩).outFS
        "img-640w.webp" = none
    ∧ (fun n => !(n == "img-320w.webp")) "img-640w.webp" = true := by
  decide

/-- Manifest updates by `processImage` are all-or-nothing: the manifest
is either untouched or receives the complete freshly computed entry. -/
theorem processImage_manifest_all_or_nothing (cfg : Config) (inputFS : InFS)
    (now : Nat) (encodeOK : String → Bool) (p : String) (st : ProcState) :
    (processImage cfg inputFS now encodeOK p st).manifest = st.manifest
    ∨ ∃ fi m, fiFind inputFS p = some fi ∧ fi.meta = some m ∧
        (processImage cfg inputFS now encodeOK p st).manifest
          = mInsert st.manifest p (successEntry cfg p m.width m.height) := by
  cases hfi : fiFind inputFS p with
  | none => left; simp [processImage, hfi]
  | some fi =>
    cases hme : fi.meta with
    | none => left; simp [processImage, hfi, hme]
    | some m =>
      by_cases hdim : (m.width == 0 || m.height == 0) = true
      · left; simp [processImage, hfi, hme, hdim]
      · by_cases hf : (encodeVariants cfg p m.width m.height now encodeOK
            (retainedPairs cfg m.width) ⟨st.outFS, [], 0⟩).1 = true
        · right
          refine ⟨fi, m, rfl, hme, ?_⟩
          simp only [processImage, hfi, hme, hdim, Bool.false_eq_true,
            if_false, hf, if_true]
          have hv := encodeVariants_vars_of_fst cfg p m.width m.height now encodeOK
            (retainedPairs cfg m.width) ⟨st.outFS, [], 0⟩ hf
          rw [hv]
          rfl
        · left
          simp only [Bool.not_eq_true] at hf
          simp only [processImage, hfi, hme, hdim, Bool.false_eq_true,
            if_false, hf]

/-- Claim C1 (amended): a per-variant encode failure aborts the whole
Original: the remaining widths and formats are not attempted and the
manifest update is all-or-nothing — `processImage` either leaves the
manifest untouched (unreadable source, degenerate dimensions, or any
encode failure; the error is reported non-fatally and the batch
continues with other Originals) or installs the complete freshly
computed entry. -/
theorem claimC1_amended (cfg : Config) (inputFS : InFS) (now : Nat)
    (encodeOK : String → Bool) (p : String) (st : ProcState) :
    (processImage cfg inputFS now encodeOK p st).manifest = st.manifest
    ∨ ∃ fi m, fiFind inputFS p = some fi ∧ fi.meta = some m ∧
        (processImage cfg inputFS now encodeOK p st).manifest
          = mInsert st.manifest p (successEntry cfg p m.width m.height) :=
  processImage_manifest_all_or_nothing cfg inputFS now encodeOK p st

/-- The manifest after `processImage` is either untouched or a
whole-entry replacement for `p` (never a partial field update). -/
theorem processImage_manifest_cases (cfg : Config) (inputFS : InFS) (now : Nat)
    (encodeOK : String → Bool) (p : String) (st : ProcState) :
    (processImage cfg inputFS now encodeOK p st).manifest = st.manifest
    ∨ ∃ e, (processImage cfg inputFS now encodeOK p st).manifest
        = mInsert st.manifest p e := by
  rcases processImage_manifest_all_or_nothing cfg inputFS now encodeOK p st with
    h | ⟨fi, m, _, _, h⟩
  · exact Or.inl h
  · exact Or.inr ⟨_, h⟩

/-- With a readable, non-degenerate source and an always-succeeding
codec, `processImage` installs exactly the complete fresh entry. -/
theorem processImage_success_manifest (cfg : Config) (inputFS : InFS) (now : Nat)
    (encodeOK : String → Bool) (p : String) (st : ProcState)
    (fi : FileInfo) (m : ImgMeta)
    (henc : ∀ n, encodeOK n = true)
    (hfi : fiFind inputFS p = some fi) (hme : fi.meta = some m)
    (hW : m.width ≠ 0) (hH : m.height ≠ 0) :
    (processImage cfg inputFS now encodeOK p st).manifest
      = mInsert st.manifest p (successEntry cfg p m.width m.height) := by
  have hdim : (m.width == 0 || m.height == 0) = false := by simp [hW, hH]
  have hf := encodeVariants_fst cfg p m.width m.height now encodeOK henc
    (retainedPairs cfg m.width) ⟨st.outFS, [], 0⟩
  have hv := encodeVariants_vars_of_fst cfg p m.width m.height now encodeOK
    (retainedPairs cfg m.width) ⟨st.outFS, [], 0⟩ hf
  simp only [processImage, hfi, hme, hdim, Bool.false_eq_true, if_false, hf,
    if_true]
  rw [hv]
  rfl

/-! ## Claim C3: the no-upscaling invariant -/

/-- Claim C3: every variant in an entry produced by the variant generator
has width (and recorded size) at most the original's intrinsic width;
configured widths larger than the intrinsic width never produce a
variant. -/
theorem claimC3 (cfg : Config) (inputFS : InFS) (now : Nat)
    (encodeOK : String → Bool) (p : String) (st : ProcState)
    (fi : FileInfo) (m : ImgMeta)
    (henc : ∀ n, encodeOK n = true)
    (hfi : fiFind inputFS p = some fi) (hme : fi.meta = some m)
    (hW : m.width ≠ 0) (hH : m.height ≠ 0) :
    ∃ e, mFind (processImage cfg inputFS now encodeOK p st).manifest p = some e
      ∧ ∀ v ∈ e.variants, v.width ≤ m.width ∧ v.size ≤ m.width := by
  refine ⟨successEntry cfg p m.width m.height, ?_, ?_⟩
  · rw [processImage_success_manifest cfg inputFS now encodeOK p st fi m henc
      hfi hme hW hH]
    exact mFind_insert_self _ _ _
  · intro v hv
    simp only [successEntry, successVariants, List.mem_map] at hv
    obtain ⟨pr, hpr, rfl⟩ := hv
    have hle := mem_retainedPairs_le hpr
    exact ⟨hle, hle⟩

/-- Claim C3 witness: a 500-wide original with configured sizes
`[320, 640]`; the resulting entry's variants all have width at most 500
(in particular no `-640w` variant exists). -/
theorem claimC3_witness :
    ((∀ n : String, (fun (_ : String) => true) n = true)
      ∧ fiFind [("pic.jpg", ⟨2, some ⟨500, 400, some "jpeg"⟩⟩)] "pic.jpg"
          = some ⟨2, some ⟨500, 400, some "jpeg"⟩⟩)
    ∧ ∃ e, mFind (processImage ⟨["webp"], [320, 640], 80, true, false, true⟩
          [("pic.jpg", ⟨2, some ⟨500, 400, some "jpeg"⟩⟩)] 7 (fun _ => true)
          "pic.jpg" ⟨[], [], 0⟩).manifest "pic.jpg" = some e
        ∧ ∀ v ∈ e.variants, v.width ≤ 500 ∧ v.size ≤ 500 :=
  ⟨⟨fun _ => rfl, by decide⟩,
    claimC3 ⟨["webp"], [320, 640], 80, true, false, true⟩
      [("pic.jpg", ⟨2, some ⟨500, 400, some "jpeg"⟩⟩)] 7 (fun _ => true)
      "pic.jpg" ⟨[], [], 0⟩ ⟨2, some ⟨500, 400, some "jpeg"⟩⟩
      ⟨500, 400, some "jpeg"⟩ (fun _ => rfl) (by decide) rfl
      (by decide) (by decide)⟩

/-! ## Claim C9: the recorded height -/

/-- Claim C9: every variant the generator records has
`height = round(targetWidth * originalHeight / originalWidth)` computed
from the intrinsic dimensions read at generation time (exact rational
arithmetic, round half up). -/
theorem claimC9 (cfg : Config) (inputFS : InFS) (now : Nat)
    (encodeOK : String → Bool) (p : String) (st : ProcState)
    (fi : FileInfo) (m : ImgMeta)
    (henc : ∀ n, encodeOK n = true)
    (hfi : fiFind inputFS p = some fi) (hme : fi.meta = some m)
    (hW : m.width ≠ 0) (hH : m.height ≠ 0) :
    ∃ e, mFind (processImage cfg inputFS now encodeOK p st).manifest p = some e
      ∧ e.width = m.width ∧ e.height = m.height
      ∧ ∀ v ∈ e.variants,
          v.height = round (((v.width : ℚ) * (m.height : ℚ)) / (m.width : ℚ)) := by
  refine ⟨successEntry cfg p m.width m.height, ?_, rfl, rfl, ?_⟩
  · rw [processImage_success_manifest cfg inputFS now encodeOK p st fi m henc
      hfi hme hW hH]
    exact mFind_insert_self _ _ _
  · intro v hv
    simp only [successEntry, successVariants, List.mem_map] at hv
    obtain ⟨pr, hpr, rfl⟩ := hv
    show variantHeight pr.1 m.width m.height
      = round (((pr.1 : ℚ) * (m.height : ℚ)) / (m.width : ℚ))
    rw [variantHeight_eq_round pr.1 m.width m.height hW, mul_div_assoc]

/-- Claim C9 witness: a 1000 × 600 original with configured width 333;
the recorded height is `round(333 * 600 / 1000) = round(199.8) = 200`. -/
theorem claimC9_witness :
    ((∀ n : String, (fun (_ : String) => true) n = true)
      ∧ variantHeight 333 1000 600 = 200)
    ∧ ∃ e, mFind (processImage ⟨["webp"], [333], 80, false, false, true⟩
          [("w.png", ⟨3, some ⟨1000, 600, some "png"⟩⟩)] 9 (fun _ => true)
          "w.png" ⟨[], [], 0⟩).manifest "w.png" = some e
        ∧ e.width = 1000 ∧ e.height = 600
        ∧ ∀ v ∈ e.variants,
            v.height = round (((v.width : ℚ) * (600 : ℚ)) / (1000 : ℚ)) :=
  ⟨⟨fun _ => rfl, by decide⟩,
    claimC9 ⟨["webp"], [333], 80, false, false, true⟩
      [("w.png", ⟨3, some ⟨1000, 600, some "png"⟩⟩)] 9 (fun _ => true)
      "w.png" ⟨[], [], 0⟩ ⟨3, some ⟨1000, 600, some "png"⟩⟩
      ⟨1000, 600, some "png"⟩ (fun _ => rfl) (by decide) rfl
      (by decide) (by decide)⟩

/-! ## Claim C10: unrecognized formats in `optimizeOnTheFly` -/

/-- Claim C10: for an existing, readable source, an unrecognized format
string does not fail: the image is still resized to the requested (or
intrinsic) width, no format conversion is applied, and the content type
is `image/` followed by the detected source format, defaulting to
`image/jpeg` when unknown. -/
theorem claimC10 (inputFS : InFS) (p : String) (wOpt : Option Nat)
    (format : String) (quality : Nat) (fi : FileInfo) (m : ImgMeta)
    (hfi : fiFind inputFS p = some fi) (hme : fi.meta = some m)
    (hW : m.width ≠ 0) (hH : m.height ≠ 0)
    (hfmt : format ∉ ["webp", "avif", "jpeg", "jpg", "png"]) :
    optimizeOnTheFly inputFS p wOpt format quality
      = some ⟨"image/" ++ m.fmt.getD "jpeg", wOpt.getD m.width,
          variantHeight (wOpt.getD m.width) m.width m.height, none⟩ := by
  have hdim : (m.width == 0 || m.height == 0) = false := by simp [hW, hH]
  simp only [List.mem_cons, List.not_mem_nil, or_false, not_or] at hfmt
  obtain ⟨h1, h2, h3, h4, h5⟩ := hfmt
  have b1 : (format == "webp") = false := by simp [h1]
  have b2 : (format == "avif") = false := by simp [h2]
  have b3 : (format == "jpeg") = false := by simp [h3]
  have b4 : (format == "jpg") = false := by simp [h4]
  have b5 : (format == "png") = false := by simp [h5]
  simp only [optimizeOnTheFly, hfi, hme, hdim, Bool.false_eq_true, if_false,
    b1, b2, b3, b4, b5, Bool.or_self, Bool.false_or]

/-- Claim C10 witness: a readable `anim.gif` requested as format
`"gif"` at width 200 resizes to 200 × 150 with no conversion and content
type `image/gif`. -/
theorem claimC10_witness :
    (fiFind [("anim.gif", ⟨4, some ⟨800, 600, some "gif"⟩⟩)] "anim.gif"
        = some ⟨4, some ⟨800, 600, some "gif"⟩⟩
      ∧ ("gif" : String) ∉ ["webp", "avif", "jpeg", "jpg", "png"])
    ∧ optimizeOnTheFly [("anim.gif", ⟨4, some ⟨800, 600, some "gif"⟩⟩)]
        "anim.gif" (some 200) "gif" 80
      = some ⟨"image/" ++ (some "gif").getD "jpeg", (some 200).getD 800,
          variantHeight ((some 200).getD 800) 800 600, none⟩ :=
  ⟨⟨by decide, by decide⟩,
    claimC10 [("anim.gif", ⟨4, some ⟨800, 600, some "gif"⟩⟩)] "anim.gif"
      (some 200) "gif" 80 ⟨4, some ⟨800, 600, some "gif"⟩⟩
      ⟨800, 600, some "gif"⟩ (by decide) rfl (by decide) (by decide)
      (by decide)⟩

/-! ## Claim C4: the staleness detector -/

/-- The staleness condition exactly as the claim states it (spec §4.3),
for an Original whose source file has modification time `srcMtime`: no
entry or zero variants, some variant's output file missing, or the
source strictly newer than the first variant's output file. -/
def staleSpec (outFS : OutFS) (manifest : Manifest) (p : String)
    (srcMtime : Nat) : Bool :=
  match mFind manifest p with
  | none => true
  | some e =>
    e.variants.isEmpty
    || e.variants.any (fun v => (fsFind outFS v.path).isNone)
    || (match e.variants.head? with
        | none => false
        | some v0 =>
          match fsFind outFS v0.path with
          | none => false
          | some t0 => decide (t0 < srcMtime))

/-- Claim C4: for every Original (a source file present in the input
tree), `needsProcessing` returns STALE exactly under the spec's
condition and FRESH otherwise. -/
theorem claimC4 (inputFS : InFS) (outFS : OutFS) (manifest : Manifest)
    (p : String) (fi : FileInfo) (hfi : fiFind inputFS p = some fi) :
    needsProcessing inputFS outFS manifest p
      = staleSpec outFS manifest p fi.mtime := by
  unfold needsProcessing staleSpec
  cases hm : mFind manifest p with
  | none => rfl
  | some e =>
    by_cases hemp : e.variants.isEmpty = true
    · simp [hemp]
    · simp only [Bool.not_eq_true] at hemp
      by_cases hany : e.variants.any (fun v => (fsFind outFS v.path).isNone) = true
      · simp [hemp, hany]
      · simp only [Bool.not_eq_true] at hany
        simp only [hemp, hany, Bool.false_eq_true, if_false, hfi,
          Bool.false_or]
        cases hvar : e.variants with
        | nil => rw [hvar] at hemp; simp at hemp
        | cons v vs =>
          simp only [List.head?_cons]
          cases hf0 : fsFind outFS v.path with
          | none =>
            exfalso
            simp at hany
            exact hany v (by rw [hvar]; exact List.mem_cons_self v vs) hf0
          | some t0 => simp only [hf0]

/-- Claim C4 witness: a concrete state where the source (mtime 9) is
strictly newer than the first variant's output (mtime 5): both the code
and the spec condition report STALE. -/
theorem claimC4_witness :
    (fiFind [("a.jpg", ⟨9, some ⟨100, 50, none⟩⟩)] "a.jpg"
        = some ⟨9, some ⟨100, 50, none⟩⟩)
    ∧ needsProcessing [("a.jpg", ⟨9, some ⟨100, 50, none⟩⟩)]
        [("a-320w.webp", 5)]
        [("a.jpg", ⟨"a.jpg", 100, 50, [⟨"webp", 320, "a-320w.webp", 320, 160⟩]⟩)]
        "a.jpg"
      = staleSpec [("a-320w.webp", 5)]
        [("a.jpg", ⟨"a.jpg", 100, 50, [⟨"webp", 320, "a-320w.webp", 320, 160⟩]⟩)]
        "a.jpg" 9 :=
  ⟨by decide,
    claimC4 [("a.jpg", ⟨9, some ⟨100, 50, none⟩⟩)] [("a-320w.webp", 5)]
      [("a.jpg", ⟨"a.jpg", 100, 50, [⟨"webp", 320, "a-320w.webp", 320, 160⟩]⟩)]
      "a.jpg" ⟨9, some ⟨100, 50, none⟩⟩ (by decide)⟩

/-! ## Claims C5 and C6: the on-the-fly resolver -/

/-- With a readable, non-degenerate source, `optimizeOnTheFly` always
produces a result, whatever the format string. -/
theorem optimizeOnTheFly_isSome (inputFS : InFS) (p : String)
    (wOpt : Option Nat) (format : String) (quality : Nat)
    (fi : FileInfo) (m : ImgMeta)
    (hfi : fiFind inputFS p = some fi) (hme : fi.meta = some m)
    (hW : m.width ≠ 0) (hH : m.height ≠ 0) :
    ∃ r, optimizeOnTheFly inputFS p wOpt format quality = some r := by
  have hdim : (m.width == 0 || m.height == 0) = false := by simp [hW, hH]
  simp only [optimizeOnTheFly, hfi, hme, hdim, Bool.false_eq_true, if_false]
  split
  · exact ⟨_, rfl⟩
  · split
    · exact ⟨_, rfl⟩
    · split
      · exact ⟨_, rfl⟩
      · split
        · exact ⟨_, rfl⟩
        · exact ⟨_, rfl⟩

/-- Reduction of the route handler on the query-parameterized generation
branch: a non-variant-pattern path with some parameter present and a
successful optimization yields the generated response with the
`X-Image-Optimized: on-the-fly` header, an untouched output tree, and
one codec invocation. -/
theorem handleRequest_querygen (cfg : Config) (inputFS : InFS) (outFS : OutFS)
    (now : Nat) (req : Req) (r : OTF)
    (himg : isImageFile req.path = true)
    (hvm : variantMatch req.path = none)
    (hparam : (req.w.isNone && req.fmt.isNone && req.q.isNone) = false)
    (hr : optimizeOnTheFly inputFS req.path req.w
        (req.fmt.getD (cfg.formats.headD "webp")) (req.q.getD cfg.quality)
      = some r) :
    handleRequest cfg inputFS outFS now req
      = ⟨.generated r.contentType ccDay true, outFS, 1⟩ := by
  simp only [handleRequest, himg, Bool.not_true, Bool.false_eq_true, if_false,
    hvm, hparam, hr]

/-- Claim C5 counterexample: the request `hero-640w.webp?w=800` carries
the query parameter `w`, yet because its path matches the pre-built
variant-filename pattern and the file exists under output, it is served
from the pre-existing file with zero codec invocations. -/
theorem claimC5_counterexample :
    (some 800 : Option Nat).isSome = true
    ∧ handleRequest ⟨["webp"], [320], 80, true, false, true⟩
        [("hero.jpg", ⟨1, some ⟨1000, 600, some "jpeg"⟩⟩)]
        [("hero-640w.webp", 7)] 9 ⟨"hero-640w.webp", some 800, none, none⟩
      = ⟨.fileOut "hero-640w.webp" ccImmutable, [("hero-640w.webp", 7)], 0⟩ := by
  decide

/-- Claim C5 (amended): for every query-parameterized request whose path
does not match the variant-filename pattern (such a match takes
precedence and is served or cached from disk), the response is always
freshly generated, the generated bytes are never written back to disk,
and requesting the same URL twice invokes the codec twice. -/
theorem claimC5_amended (cfg : Config) (inputFS : InFS) (outFS : OutFS)
    (now1 now2 : Nat) (req : Req) (fi : FileInfo) (m : ImgMeta)
    (himg : isImageFile req.path = true)
    (hvm : variantMatch req.path = none)
    (hparam : (req.w.isNone && req.fmt.isNone && req.q.isNone) = false)
    (hfi : fiFind inputFS req.path = some fi) (hme : fi.meta = some m)
    (hW : m.width ≠ 0) (hH : m.height ≠ 0) :
    (handleRequest cfg inputFS outFS now1 req).outFS = outFS
    ∧ (handleRequest cfg inputFS outFS now1 req).codecCalls = 1
    ∧ (∃ ct, (handleRequest cfg inputFS outFS now1 req).response
        = .generated ct ccDay true)
    ∧ (handleRequest cfg inputFS
        (handleRequest cfg inputFS outFS now1 req).outFS now2 req).codecCalls
      = 1 := by
  obtain ⟨r, hr⟩ := optimizeOnTheFly_isSome inputFS req.path req.w
    (req.fmt.getD (cfg.formats.headD "webp")) (req.q.getD cfg.quality)
    fi m hfi hme hW hH
  have h1 := handleRequest_querygen cfg inputFS outFS now1 req r himg hvm hparam hr
  have h2 := handleRequest_querygen cfg inputFS outFS now2 req r himg hvm hparam hr
  refine ⟨by rw [h1], by rw [h1], ⟨r.contentType, by rw [h1]⟩, ?_⟩
  rw [h1]
  rw [show (⟨Response.generated r.contentType ccDay true, outFS, 1⟩
    : HandleResult).outFS = outFS from rfl]
  rw [h2]

/-- Claim C5 amended, witness: `hero.jpg?w=800&format=avif` with
`hero.jpg` readable: one codec call, no write-back, and a second
identical request costs another codec call. -/
theorem claimC5_witness :
    (isImageFile "hero.jpg" = true ∧ variantMatch "hero.jpg" = none
      ∧ (((some 800 : Option Nat)).isNone && ((some "avif" : Option String)).isNone
          && ((none : Option Nat)).isNone) = false)
    ∧ ((handleRequest ⟨["webp"], [320], 80, true, false, true⟩
          [("hero.jpg", ⟨1, some ⟨1000, 600, some "jpeg"⟩⟩)] [] 9
          ⟨"hero.jpg", some 800, some "avif", none⟩).outFS = []
      ∧ (handleRequest ⟨["webp"], [320], 80, true, false, true⟩
          [("hero.jpg", ⟨1, some ⟨1000, 600, some "jpeg"⟩⟩)] [] 9
          ⟨"hero.jpg", some 800, some "avif", none⟩).codecCalls = 1
      ∧ (∃ ct, (handleRequest ⟨["webp"], [320], 80, true, false, true⟩
          [("hero.jpg", ⟨1, some ⟨1000, 600, some "jpeg"⟩⟩)] [] 9
          ⟨"hero.jpg", some 800, some "avif", none⟩).response
            = .generated ct ccDay true)
      ∧ (handleRequest ⟨["webp"], [320], 80, true, false, true⟩
          [("hero.jpg", ⟨1, some ⟨1000, 600, some "jpeg"⟩⟩)]
          (handleRequest ⟨["webp"], [320], 80, true, false, true⟩
            [("hero.jpg", ⟨1, some ⟨1000, 600, some "jpeg"⟩⟩)] [] 9
            ⟨"hero.jpg", some 800, some "avif", none⟩).outFS 11
          ⟨"hero.jpg", some 800, some "avif", none⟩).codecCalls = 1) :=
  ⟨⟨by decide, by decide, by decide⟩,
    claimC5_amended ⟨["webp"], [320], 80, true, false, true⟩
      [("hero.jpg", ⟨1, some ⟨1000, 600, some "jpeg"⟩⟩)] [] 9 11
      ⟨"hero.jpg", some 800, some "avif", none⟩
      ⟨1, some ⟨1000, 600, some "jpeg"⟩⟩ ⟨1000, 600, some "jpeg"⟩
      (by decide) (by decide) (by decide) (by decide) rfl
      (by decide) (by decide)⟩

/-- Claim C6 (code bug): live generation through the variant-filename
path produces a response with no `X-Image-Optimized` header (the
distinguishing signal is only set on the query-parameterized path), so
callers cannot distinguish this freshly generated response from a
pre-built one — contradicting the documented response-header contract.
The first conjunct evaluates the failing input: `hero-640w.webp`, absent
from output but derivable from `hero.jpg`, is generated (one codec
call), written back, and served with the header absent; the second shows
the same state's query-parameterized request does carry the header. -/
theorem claimC6_bug :
    handleRequest ⟨["webp"], [320], 80, true, false, true⟩
        [("hero.jpg", ⟨1, some ⟨1000, 600, some "jpeg"⟩⟩)] [] 9
        ⟨"hero-640w.webp", none, none, none⟩
      = ⟨.generated "image/webp" ccImmutable false, [("hero-640w.webp", 9)], 1⟩
    ∧ (handleRequest ⟨["webp"], [320], 80, true, false, true⟩
        [("hero.jpg", ⟨1, some ⟨1000, 600, some "jpeg"⟩⟩)] [] 9
        ⟨"hero.jpg", some 640, none, none⟩).response
      = .generated "image/webp" ccDay true := by
  decide

/-! ## Claim C2: state lemmas for the encode loops -/

/-- Files present in the output tree stay present through the loops. -/
theorem encodeVariants_mono (cfg : Config) (p : String) (W H now : Nat)
    (encodeOK : String → Bool) :
    ∀ (pairs : List (Nat × String)) (acc : VarAcc) (n : String),
      (fsFind acc.outFS n).isSome = true →
      (fsFind (encodeVariants cfg p W H now encodeOK pairs acc).2.outFS n).isSome
        = true := by
  intro pairs
  induction pairs with
  | nil => intro acc n h; exact h
  | cons pr rest ih =>
    intro acc n h
    by_cases hskip : (cfg.skipExisting
        && (fsFind acc.outFS (getOutputFilename p pr.1 pr.2)).isSome) = true
    · simp only [encodeVariants, hskip, if_true]
      exact ih _ n h
    · by_cases he : encodeOK (getOutputFilename p pr.1 pr.2) = true
      · simp only [encodeVariants, hskip, Bool.false_eq_true, if_false, he,
          if_true]
        exact ih _ n (fsFind_write_isSome _ _ _ _ h)
      · simp only [encodeVariants, hskip, Bool.false_eq_true, if_false, he,
          if_false]
        exact h

/-- Every lookup after the loops is either unchanged or a fresh write at
clock `now`. -/
theorem encodeVariants_cases (cfg : Config) (p : String) (W H now : Nat)
    (encodeOK : String → Bool) :
    ∀ (pairs : List (Nat × String)) (acc : VarAcc) (n : String),
      fsFind (encodeVariants cfg p W H now encodeOK pairs acc).2.outFS n
          = fsFind acc.outFS n
      ∨ fsFind (encodeVariants cfg p W H now encodeOK pairs acc).2.outFS n
          = some now := by
  intro pairs
  induction pairs with
  | nil => intro acc n; left; rfl
  | cons pr rest ih =>
    intro acc n
    by_cases hskip : (cfg.skipExisting
        && (fsFind acc.outFS (getOutputFilename p pr.1 pr.2)).isSome) = true
    · simp only [encodeVariants, hskip, if_true]
      exact ih _ n
    · by_cases he : encodeOK (getOutputFilename p pr.1 pr.2) = true
      · simp only [encodeVariants, hskip, Bool.false_eq_true, if_false, he,
          if_true]
        rcases ih ⟨fsWrite acc.outFS (getOutputFilename p pr.1 pr.2) now,
            acc.vars ++ [mkVariant p W H pr], acc.encodes + 1⟩ n with hc | hc
        · rw [hc]
          exact fsFind_write_cases _ _ _ _
        · right; exact hc
      · simp only [encodeVariants, hskip, Bool.false_eq_true, if_false, he,
          if_false]
        exact Or.inl trivial

/-- A lookup that already reads the current clock keeps doing so. -/
theorem encodeVariants_keeps_now (cfg : Config) (p : String) (W H now : Nat)
    (encodeOK : String → Bool) (pairs : List (Nat × String)) (acc : VarAcc)
    (n : String) (h : fsFind acc.outFS n = some now) :
    fsFind (encodeVariants cfg p W H now encodeOK pairs acc).2.outFS n
      = some now := by
  rcases encodeVariants_cases cfg p W H now encodeOK pairs acc n with hc | hc
  · rw [hc]; exact h
  · exact hc

/-- With an always-succeeding codec every retained output name exists
after the loops. -/
theorem encodeVariants_present (cfg : Config) (p : String) (W H now : Nat)
    (encodeOK : String → Bool) (henc : ∀ n, encodeOK n = true) :
    ∀ (pairs : List (Nat × String)) (acc : VarAcc), ∀ pr ∈ pairs,
      (fsFind (encodeVariants cfg p W H now encodeOK pairs acc).2.outFS
        (getOutputFilename p pr.1 pr.2)).isSome = true := by
  intro pairs
  induction pairs with
  | nil => intro acc pr h; simp at h
  | cons pr0 rest ih =>
    intro acc pr hpr
    by_cases hskip : (cfg.skipExisting
        && (fsFind acc.outFS (getOutputFilename p pr0.1 pr0.2)).isSome) = true
    · simp only [encodeVariants, hskip, if_true]
      rcases List.mem_cons.mp hpr with rfl | hrest
      · exact encodeVariants_mono cfg p W H now encodeOK rest _ _
          (Bool.and_elim_right hskip)
      · exact ih _ pr hrest
    · simp only [encodeVariants, hskip, Bool.false_eq_true, if_false,
        henc (getOutputFilename p pr0.1 pr0.2), if_true]
      rcases List.mem_cons.mp hpr with rfl | hrest
      · refine encodeVariants_mono cfg p W H now encodeOK rest _ _ ?_
        rw [fsFind_write_self]; rfl
      · exact ih _ pr hrest

/-- With `skipExisting` disabled and an always-succeeding codec, every
retained output name is freshly written at clock `now`. -/
theorem encodeVariants_all_now (cfg : Config) (p : String) (W H now : Nat)
    (encodeOK : String → Bool) (henc : ∀ n, encodeOK n = true)
    (hskipF : cfg.skipExisting = false) :
    ∀ (pairs : List (Nat × String)) (acc : VarAcc), ∀ pr ∈ pairs,
      fsFind (encodeVariants cfg p W H now encodeOK pairs acc).2.outFS
        (getOutputFilename p pr.1 pr.2) = some now := by
  intro pairs
  induction pairs with
  | nil => intro acc pr h; simp at h
  | cons pr0 rest ih =>
    intro acc pr hpr
    have hskip : (cfg.skipExisting
        && (fsFind acc.outFS (getOutputFilename p pr0.1 pr0.2)).isSome) = false := by
      rw [hskipF]; rfl
    simp only [encodeVariants, hskip, Bool.false_eq_true, if_false,
      henc (getOutputFilename p pr0.1 pr0.2), if_true]
    rcases List.mem_cons.mp hpr with rfl | hrest
    · exact encodeVariants_keeps_now cfg p W H now encodeOK rest _ _
        (fsFind_write_self _ _ _)
    · exact ih _ pr hrest

/-- With `skipExisting` enabled and every retained name already present,
the loops change nothing and perform no encode. -/
theorem encodeVariants_skipAll (cfg : Config) (p : String) (W H now : Nat)
    (encodeOK : String → Bool) (hskipT : cfg.skipExisting = true) :
    ∀ (pairs : List (Nat × String)) (acc : VarAcc),
      (∀ pr ∈ pairs,
        (fsFind acc.outFS (getOutputFilename p pr.1 pr.2)).isSome = true) →
      (encodeVariants cfg p W H now encodeOK pairs acc).2.outFS = acc.outFS
      ∧ (encodeVariants cfg p W H now encodeOK pairs acc).2.encodes
          = acc.encodes := by
  intro pairs
  induction pairs with
  | nil => intro acc _; exact ⟨rfl, rfl⟩
  | cons pr0 rest ih =>
    intro acc hall
    have hskip : (cfg.skipExisting
        && (fsFind acc.outFS (getOutputFilename p pr0.1 pr0.2)).isSome) = true := by
      rw [hskipT, hall pr0 (List.mem_cons_self _ _)]; rfl
    simp only [encodeVariants, hskip, if_true]
    exact ih _ (fun pr hpr => hall pr (List.mem_cons.mpr (Or.inr hpr)))

/-- Every lookup after `processImage` is unchanged or a write at `now`. -/
theorem processImage_outFS_cases (cfg : Config) (inputFS : InFS) (now : Nat)
    (encodeOK : String → Bool) (p : String) (st : ProcState) (n : String) :
    fsFind (processImage cfg inputFS now encodeOK p st).outFS n
        = fsFind st.outFS n
    ∨ fsFind (processImage cfg inputFS now encodeOK p st).outFS n = some now := by
  cases hfi : fiFind inputFS p with
  | none => left; simp [processImage, hfi]
  | some fi =>
    cases hme : fi.meta with
    | none => left; simp [processImage, hfi, hme]
    | some m =>
      by_cases hdim : (m.width == 0 || m.height == 0) = true
      · left; simp [processImage, hfi, hme, hdim]
      · have hdim' : (m.width == 0 || m.height == 0) = false := by
          rw [Bool.eq_false_iff]; exact hdim
        have hc := encodeVariants_cases cfg p m.width m.height now encodeOK
          (retainedPairs cfg m.width) ⟨st.outFS, [], 0⟩ n
        by_cases hf : (encodeVariants cfg p m.width m.height now encodeOK
            (retainedPairs cfg m.width) ⟨st.outFS, [], 0⟩).1 = true
        · simp only [processImage, hfi, hme, hdim', Bool.false_eq_true,
            if_false, hf, if_true]
          by_cases hko : cfg.keepOriginal = true
          · simp only [hko, if_true]
            rcases fsFind_write_cases (encodeVariants cfg p m.width m.height now
                encodeOK (retainedPairs cfg m.width) ⟨st.outFS, [], 0⟩).2.outFS
                p now n with hw | hw
            · rw [hw]; exact hc
            · right; exact hw
          · have hko' : cfg.keepOriginal = false := by
              rw [Bool.eq_false_iff]; exact hko
            simp only [hko', Bool.false_eq_true, if_false]
            exact hc
        · have hf' : (encodeVariants cfg p m.width m.height now encodeOK
              (retainedPairs cfg m.width) ⟨st.outFS, [], 0⟩).1 = false := by
            rw [Bool.eq_false_iff]; exact hf
          simp only [processImage, hfi, hme, hdim', Bool.false_eq_true,
            if_false, hf']
          exact hc

/-- Presence in the output tree is preserved by `processImage`. -/
theorem processImage_mono (cfg : Config) (inputFS : InFS) (now : Nat)
    (encodeOK : String → Bool) (p : String) (st : ProcState) (n : String)
    (h : (fsFind st.outFS n).isSome = true) :
    (fsFind (processImage cfg inputFS now encodeOK p st).outFS n).isSome
      = true := by
  rcases processImage_outFS_cases cfg inputFS now encodeOK p st n with hc | hc
  · rw [hc]; exact h
  · rw [hc]; rfl

/-- A lookup reading the current clock still reads it afterwards. -/
theorem processImage_keeps_now (cfg : Config) (inputFS : InFS) (now : Nat)
    (encodeOK : String → Bool) (p : String) (st : ProcState) (n : String)
    (h : fsFind st.outFS n = some now) :
    fsFind (processImage cfg inputFS now encodeOK p st).outFS n = some now := by
  rcases processImage_outFS_cases cfg inputFS now encodeOK p st n with hc | hc
  · rw [hc]; exact h
  · exact hc

/-- The condition under which `processImage` performs no encode: the
file is unreadable or degenerate, or every retained width/format pair is
skipped — no retained pair at all, or `skipExisting` with every output
name already present in the base tree. -/
def zeroCond (cfg : Config) (inputFS : InFS) (base : OutFS) (f : String) : Prop :=
  ∀ fi m, fiFind inputFS f = some fi → fi.meta = some m →
    m.width ≠ 0 → m.height ≠ 0 →
    retainedPairs cfg m.width = []
    ∨ (cfg.skipExisting = true ∧
        ∀ pr ∈ retainedPairs cfg m.width,
          (fsFind base (getOutputFilename f pr.1 pr.2)).isSome = true)

/-- Presence of every file of `base` in `s`. -/
def presAll (base s : OutFS) : Prop :=
  ∀ n, (fsFind base n).isSome = true → (fsFind s n).isSome = true

theorem presAll_trans {a b c : OutFS} (h1 : presAll a b) (h2 : presAll b c) :
    presAll a c :=
  fun n h => h2 n (h1 n h)

theorem zeroCond_mono {cfg : Config} {inputFS : InFS} {base s : OutFS}
    {f : String} (h : presAll base s) (hz : zeroCond cfg inputFS base f) :
    zeroCond cfg inputFS s f := by
  intro fi m hfi hme hW hH
  rcases hz fi m hfi hme hW hH with hp | ⟨hs, hpr⟩
  · exact Or.inl hp
  · exact Or.inr ⟨hs, fun pr hpr2 => h _ (hpr pr hpr2)⟩

/-- Under `zeroCond`, `processImage` performs zero encode operations. -/
theorem processImage_encodes_zero (cfg : Config) (inputFS : InFS) (now : Nat)
    (encodeOK : String → Bool) (p : String) (st : ProcState)
    (hz : zeroCond cfg inputFS st.outFS p) :
    (processImage cfg inputFS now encodeOK p st).encodes = st.encodes := by
  cases hfi : fiFind inputFS p with
  | none => simp [processImage, hfi]
  | some fi =>
    cases hme : fi.meta with
    | none => simp [processImage, hfi, hme]
    | some m =>
      by_cases hdim : (m.width == 0 || m.height == 0) = true
      · simp [processImage, hfi, hme, hdim]
      · have hdim' : (m.width == 0 || m.height == 0) = false := by
          rw [Bool.eq_false_iff]; exact hdim
        have hWH : m.width ≠ 0 ∧ m.height ≠ 0 := by
          simpa [Bool.or_eq_false_iff, beq_eq_false_iff_ne] using hdim'
        rcases hz fi m hfi hme hWH.1 hWH.2 with hpairs | ⟨hskipT, hpres⟩
        · simp [processImage, hfi, hme, hdim', hpairs, encodeVariants]
        · obtain ⟨ho, he⟩ := encodeVariants_skipAll cfg p m.width m.height now
            encodeOK hskipT (retainedPairs cfg m.width) ⟨st.outFS, [], 0⟩ hpres
          simp only [processImage, hfi, hme, hdim', Bool.false_eq_true, if_false]
          split
          · simp [he]
          · simp [he]

/-- On the success path every retained output name exists afterwards. -/
theorem processImage_success_present (cfg : Config) (inputFS : InFS) (now : Nat)
    (encodeOK : String → Bool) (p : String) (st : ProcState)
    (fi : FileInfo) (m : ImgMeta)
    (henc : ∀ n, encodeOK n = true)
    (hfi : fiFind inputFS p = some fi) (hme : fi.meta = some m)
    (hW : m.width ≠ 0) (hH : m.height ≠ 0) :
    ∀ pr ∈ retainedPairs cfg m.width,
      (fsFind (processImage cfg inputFS now encodeOK p st).outFS
        (getOutputFilename p pr.1 pr.2)).isSome = true := by
  intro pr hpr
  have hdim' : (m.width == 0 || m.height == 0) = false := by simp [hW, hH]
  have hf := encodeVariants_fst cfg p m.width m.height now encodeOK henc
    (retainedPairs cfg m.width) ⟨st.outFS, [], 0⟩
  have hp := encodeVariants_present cfg p m.width m.height now encodeOK henc
    (retainedPairs cfg m.width) ⟨st.outFS, [], 0⟩ pr hpr
  simp only [processImage, hfi, hme, hdim', Bool.false_eq_true, if_false, hf,
    if_true]
  split
  · exact fsFind_write_isSome _ _ _ _ hp
  · exact hp

/-- With `skipExisting` disabled, every retained output name reads the
current clock after a successful `processImage`. -/
theorem processImage_success_now (cfg : Config) (inputFS : InFS) (now : Nat)
    (encodeOK : String → Bool) (p : String) (st : ProcState)
    (fi : FileInfo) (m : ImgMeta)
    (henc : ∀ n, encodeOK n = true)
    (hfi : fiFind inputFS p = some fi) (hme : fi.meta = some m)
    (hW : m.width ≠ 0) (hH : m.height ≠ 0)
    (hskipF : cfg.skipExisting = false) :
    ∀ pr ∈ retainedPairs cfg m.width,
      fsFind (processImage cfg inputFS now encodeOK p st).outFS
        (getOutputFilename p pr.1 pr.2) = some now := by
  intro pr hpr
  have hdim' : (m.width == 0 || m.height == 0) = false := by simp [hW, hH]
  have hf := encodeVariants_fst cfg p m.width m.height now encodeOK henc
    (retainedPairs cfg m.width) ⟨st.outFS, [], 0⟩
  have hp := encodeVariants_all_now cfg p m.width m.height now encodeOK henc
    hskipF (retainedPairs cfg m.width) ⟨st.outFS, [], 0⟩ pr hpr
  simp only [processImage, hfi, hme, hdim', Bool.false_eq_true, if_false, hf,
    if_true]
  split
  · exact fsFind_write_now _ _ _ _ hp
  · exact hp

theorem runBatch_nil (cfg : Config) (inputFS : InFS) (now : Nat)
    (encodeOK : String → Bool) (ps : ProcState) :
    runBatch cfg inputFS now encodeOK [] ps = ps := rfl

theorem runBatch_cons (cfg : Config) (inputFS : InFS) (now : Nat)
    (encodeOK : String → Bool) (g : String) (rest : List String)
    (ps : ProcState) :
    runBatch cfg inputFS now encodeOK (g :: rest) ps
      = runBatch cfg inputFS now encodeOK rest
          (processImage cfg inputFS now encodeOK g ps) := rfl

/-- Every lookup after a batch run is unchanged or a write at `now`. -/
theorem runBatch_outFS_cases (cfg : Config) (inputFS : InFS) (now : Nat)
    (encodeOK : String → Bool) :
    ∀ (files : List String) (ps : ProcState) (n : String),
      fsFind (runBatch cfg inputFS now encodeOK files ps).outFS n
          = fsFind ps.outFS n
      ∨ fsFind (runBatch cfg inputFS now encodeOK files ps).outFS n
          = some now := by
  intro files
  induction files with
  | nil => intro ps n; left; rfl
  | cons g rest ih =>
    intro ps n
    rw [runBatch_cons]
    rcases ih (processImage cfg inputFS now encodeOK g ps) n with hc | hc
    · rw [hc]
      exact processImage_outFS_cases cfg inputFS now encodeOK g ps n
    · right; exact hc

/-- Presence in the output tree is preserved by a batch run. -/
theorem runBatch_presAll (cfg : Config) (inputFS : InFS) (now : Nat)
    (encodeOK : String → Bool) (files : List String) (ps : ProcState) :
    presAll ps.outFS (runBatch cfg inputFS now encodeOK files ps).outFS := by
  intro n h
  rcases runBatch_outFS_cases cfg inputFS now encodeOK files ps n with hc | hc
  · rw [hc]; exact h
  · rw [hc]; rfl

/-- The manifest entry of a path processed by no file of the batch is
untouched. -/
theorem runBatch_manifest_of_ne (cfg : Config) (inputFS : InFS) (now : Nat)
    (encodeOK : String → Bool) (f : String) :
    ∀ (files : List String) (ps : ProcState), (∀ g ∈ files, g ≠ f) →
      mFind (runBatch cfg inputFS now encodeOK files ps).manifest f
        = mFind ps.manifest f := by
  intro files
  induction files with
  | nil => intro ps _; rfl
  | cons g rest ih =>
    intro ps hne
    rw [runBatch_cons]
    rw [ih _ (fun x hx => hne x (List.mem_cons.mpr (Or.inr hx)))]
    rcases processImage_manifest_cases cfg inputFS now encodeOK g ps with
      hc | ⟨e, hc⟩
    · rw [hc]
    · rw [hc, mFind_insert_ne _ _ _ _
        (fun h => hne g (List.mem_cons_self _ _) h.symm)]

/-- The facts established for an Original once it has been processed in
a run with an always-succeeding codec: its manifest entry is the
complete fresh entry, every retained output name exists, and — with
`skipExisting` disabled — every retained output name reads the run's
clock. -/
def processedFacts (cfg : Config) (now : Nat) (f : String) (m : ImgMeta)
    (ps : ProcState) : Prop :=
  mFind ps.manifest f = some (successEntry cfg f m.width m.height)
  ∧ (∀ pr ∈ retainedPairs cfg m.width,
      (fsFind ps.outFS (getOutputFilename f pr.1 pr.2)).isSome = true)
  ∧ (cfg.skipExisting = false →
      ∀ pr ∈ retainedPairs cfg m.width,
        fsFind ps.outFS (getOutputFilename f pr.1 pr.2) = some now)

theorem processImage_processedFacts_init (cfg : Config) (inputFS : InFS)
    (now : Nat) (encodeOK : String → Bool) (f : String) (fi : FileInfo)
    (m : ImgMeta) (henc : ∀ n, encodeOK n = true)
    (hfi : fiFind inputFS f = some fi) (hme : fi.meta = some m)
    (hW : m.width ≠ 0) (hH : m.height ≠ 0) (ps : ProcState) :
    processedFacts cfg now f m (processImage cfg inputFS now encodeOK f ps) := by
  refine ⟨?_, ?_, ?_⟩
  · rw [processImage_success_manifest cfg inputFS now encodeOK f ps fi m henc
      hfi hme hW hH]
    exact mFind_insert_self _ _ _
  · exact processImage_success_present cfg inputFS now encodeOK f ps fi m henc
      hfi hme hW hH
  · intro hskipF
    exact processImage_success_now cfg inputFS now encodeOK f ps fi m henc
      hfi hme hW hH hskipF

theorem processImage_processedFacts_step (cfg : Config) (inputFS : InFS)
    (now : Nat) (encodeOK : String → Bool) (f : String) (fi : FileInfo)
    (m : ImgMeta) (henc : ∀ n, encodeOK n = true)
    (hfi : fiFind inputFS f = some fi) (hme : fi.meta = some m)
    (hW : m.width ≠ 0) (hH : m.height ≠ 0) (g : String) (s : ProcState)
    (h : processedFacts cfg now f m s) :
    processedFacts cfg now f m (processImage cfg inputFS now encodeOK g s) := by
  obtain ⟨h1, h2, h3⟩ := h
  refine ⟨?_, ?_, ?_⟩
  · by_cases hgf : g = f
    · subst hgf
      rw [processImage_success_manifest cfg inputFS now encodeOK g s fi m henc
        hfi hme hW hH]
      exact mFind_insert_self _ _ _
    · rcases processImage_manifest_cases cfg inputFS now encodeOK g s with
        hc | ⟨e, hc⟩
      · rw [hc]; exact h1
      · rw [hc, mFind_insert_ne _ _ _ _ (fun hq => hgf hq.symm)]; exact h1
  · intro pr hpr
    exact processImage_mono cfg inputFS now encodeOK g s _ (h2 pr hpr)
  · intro hskipF pr hpr
    exact processImage_keeps_now cfg inputFS now encodeOK g s _ (h3 hskipF pr hpr)

theorem runBatch_processedFacts (cfg : Config) (inputFS : InFS) (now : Nat)
    (encodeOK : String → Bool) (f : String) (fi : FileInfo) (m : ImgMeta)
    (henc : ∀ n, encodeOK n = true)
    (hfi : fiFind inputFS f = some fi) (hme : fi.meta = some m)
    (hW : m.width ≠ 0) (hH : m.height ≠ 0) :
    ∀ (files : List String) (ps : ProcState),
      processedFacts cfg now f m ps →
      processedFacts cfg now f m (runBatch cfg inputFS now encodeOK files ps) := by
  intro files
  induction files with
  | nil => intro ps h; exact h
  | cons g rest ih =>
    intro ps h
    rw [runBatch_cons]
    exact ih _ (processImage_processedFacts_step cfg inputFS now encodeOK f fi m
      henc hfi hme hW hH g ps h)

/-- An Original occurring in the batch list ends the run with the
processed-facts established. -/
theorem runBatch_entry_of_mem (cfg : Config) (inputFS : InFS) (now : Nat)
    (encodeOK : String → Bool) (f : String) (fi : FileInfo) (m : ImgMeta)
    (henc : ∀ n, encodeOK n = true)
    (hfi : fiFind inputFS f = some fi) (hme : fi.meta = some m)
    (hW : m.width ≠ 0) (hH : m.height ≠ 0) :
    ∀ (files : List String) (ps : ProcState), f ∈ files →
      processedFacts cfg now f m (runBatch cfg inputFS now encodeOK files ps) := by
  intro files
  induction files with
  | nil => intro ps h; simp at h
  | cons g rest ih =>
    intro ps hmem
    rw [runBatch_cons]
    rcases List.mem_cons.mp hmem with heq | hrest
    · subst heq
      exact runBatch_processedFacts cfg inputFS now encodeOK f fi m henc hfi
        hme hW hH rest _
        (processImage_processedFacts_init cfg inputFS now encodeOK f fi m henc
          hfi hme hW hH ps)
    · exact ih _ hrest

/-- A batch over files that all satisfy `zeroCond` relative to a base
whose files are all present performs zero encode operations. -/
theorem runBatch_encodes_zero (cfg : Config) (inputFS : InFS) (now : Nat)
    (encodeOK : String → Bool) (base : OutFS) :
    ∀ (files : List String) (ps : ProcState), presAll base ps.outFS →
      (∀ f ∈ files, zeroCond cfg inputFS base f) →
      (runBatch cfg inputFS now encodeOK files ps).encodes = ps.encodes := by
  intro files
  induction files with
  | nil => intro ps _ _; rfl
  | cons g rest ih =>
    intro ps hpres hall
    rw [runBatch_cons]
    have hz := zeroCond_mono hpres (hall g (List.mem_cons_self _ _))
    have hpres2 : presAll base (processImage cfg inputFS now encodeOK g ps).outFS :=
      presAll_trans hpres
        (fun n h => processImage_mono cfg inputFS now encodeOK g ps n h)
    rw [ih _ hpres2 (fun x hx => hall x (List.mem_cons.mpr (Or.inr hx)))]
    exact processImage_encodes_zero cfg inputFS now encodeOK g ps hz

/-- Unfolding of a FRESH verdict into its constituent facts. -/
theorem needsProcessing_false_elim (inputFS : InFS) (outFS : OutFS)
    (manifest : Manifest) (p : String)
    (h : needsProcessing inputFS outFS manifest p = false) :
    ∃ e v0 vs fi t0,
      mFind manifest p = some e ∧ e.variants = v0 :: vs ∧
      (∀ v ∈ e.variants, ¬ fsFind outFS v.path = none) ∧
      fiFind inputFS p = some fi ∧
      fsFind outFS v0.path = some t0 ∧ ¬ t0 < fi.mtime := by
  cases hm : mFind manifest p with
  | none => exfalso; simp [needsProcessing, hm] at h
  | some e =>
    cases hvar : e.variants with
    | nil => exfalso; simp [needsProcessing, hm, hvar] at h
    | cons v0 vs =>
      by_cases hany : ((v0 :: vs).any fun v => (fsFind outFS v.path).isNone) = true
      · exfalso
        simp only [needsProcessing, hm, hvar, List.isEmpty_cons,
          Bool.false_eq_true, if_false, hany, if_true] at h
        exact absurd h (by decide)
      · have hany' : ((v0 :: vs).any fun v => (fsFind outFS v.path).isNone)
            = false := by
          rw [Bool.eq_false_iff]; exact hany
        cases hfi : fiFind inputFS p with
        | none =>
          exfalso
          simp only [needsProcessing, hm, hvar, List.isEmpty_cons,
            Bool.false_eq_true, if_false, hany', hfi] at h
          exact absurd h (by decide)
        | some fi =>
          cases hf0 : fsFind outFS v0.path with
          | none =>
            exfalso
            simp only [needsProcessing, hm, hvar, List.isEmpty_cons,
              Bool.false_eq_true, if_false, hany', hfi, List.head?_cons,
              hf0] at h
            exact absurd h (by decide)
          | some t0 =>
            refine ⟨e, v0, vs, fi, t0, rfl, hvar, ?_, rfl, hf0, ?_⟩
            · intro v hv hnone
              have : ((v0 :: vs).any fun v => (fsFind outFS v.path).isNone)
                  = true := by
                refine List.any_eq_true.mpr ⟨v, ?_, ?_⟩
                · rw [← hvar]; exact hv
                · simp [hnone]
              exact hany this
            · simp only [needsProcessing, hm, hvar, List.isEmpty_cons,
                Bool.false_eq_true, if_false, hany', hfi, List.head?_cons,
                hf0] at h
              exact of_decide_eq_false h

/-- Reassembly of a FRESH verdict from its constituent facts. -/
theorem needsProcessing_false_intro (inputFS : InFS) (outFS : OutFS)
    (manifest : Manifest) (p : String) (e : ManifestEntry) (v0 : Variant)
    (vs : List Variant) (fi : FileInfo) (t0 : Nat)
    (hm : mFind manifest p = some e) (hvar : e.variants = v0 :: vs)
    (hall : ∀ v ∈ e.variants, ¬ fsFind outFS v.path = none)
    (hfi : fiFind inputFS p = some fi)
    (hf0 : fsFind outFS v0.path = some t0) (hlt : ¬ t0 < fi.mtime) :
    needsProcessing inputFS outFS manifest p = false := by
  have hany : ((v0 :: vs).any fun v => (fsFind outFS v.path).isNone) = false := by
    rw [Bool.eq_false_iff]
    intro hc
    rcases List.any_eq_true.mp hc with ⟨x, hx, hpx⟩
    refine hall x ?_ ?_
    · rw [hvar]; exact hx
    · simpa using hpx
  simp only [needsProcessing, hm, hvar, List.isEmpty_cons, Bool.false_eq_true,
    if_false, hany, hfi, List.head?_cons, hf0]
  simp [hlt]

/-- Once an Original has been processed in run 1 and is nevertheless
STALE again, its next processing performs no encode: either no pair is
retained, or `skipExisting` holds and every retained name is present. -/
theorem after_processed (cfg : Config) (inputFS : InFS) (now1 : Nat)
    (base : OutFS) (M1 : Manifest) (f : String) (fi : FileInfo) (m : ImgMeta)
    (hfi : fiFind inputFS f = some fi) (hme : fi.meta = some m)
    (hment : mFind M1 f = some (successEntry cfg f m.width m.height))
    (hpres : ∀ pr ∈ retainedPairs cfg m.width,
      (fsFind base (getOutputFilename f pr.1 pr.2)).isSome = true)
    (hnow : cfg.skipExisting = false →
      ∀ pr ∈ retainedPairs cfg m.width,
        fsFind base (getOutputFilename f pr.1 pr.2) = some now1)
    (hmtf : fi.mtime ≤ now1)
    (hstale : needsProcessing inputFS base M1 f = true) :
    retainedPairs cfg m.width = []
    ∨ (cfg.skipExisting = true ∧
        ∀ pr ∈ retainedPairs cfg m.width,
          (fsFind base (getOutputFilename f pr.1 pr.2)).isSome = true) := by
  cases hpairs : retainedPairs cfg m.width with
  | nil => exact Or.inl rfl
  | cons pr0 rest =>
    by_cases hskip : cfg.skipExisting = true
    · refine Or.inr ⟨hskip, ?_⟩
      rw [← hpairs]; exact hpres
    · exfalso
      have hskipF : cfg.skipExisting = false := by
        rw [Bool.eq_false_iff]; exact hskip
      have hfresh : needsProcessing inputFS base M1 f = false := by
        refine needsProcessing_false_intro inputFS base M1 f
          (successEntry cfg f m.width m.height) (mkVariant f m.width m.height pr0)
          (rest.map (mkVariant f m.width m.height)) fi now1 ?_ ?_ ?_ hfi ?_ ?_
        · exact hment
        · show successVariants cfg f m.width m.height = _
          rw [successVariants, hpairs, List.map_cons]
        · intro v hv
          have hv2 : v ∈ successVariants cfg f m.width m.height := hv
          rw [successVariants] at hv2
          rcases List.mem_map.mp hv2 with ⟨pr, hpr, rfl⟩
          have := hpres pr hpr
          rw [show (mkVariant f m.width m.height pr).path
            = getOutputFilename f pr.1 pr.2 from rfl]
          intro hnone
          rw [hnone] at this
          exact absurd this (by simp)
        · show fsFind base (mkVariant f m.width m.height pr0).path = some now1
          rw [show (mkVariant f m.width m.height pr0).path
            = getOutputFilename f pr0.1 pr0.2 from rfl]
          refine hnow hskipF pr0 ?_
          rw [hpairs]; exact List.mem_cons_self _ _
        · exact Nat.not_lt.mpr hmtf
      rw [hfresh] at hstale
      exact absurd hstale (by simp)

/-- An Original FRESH before run 1 stays FRESH after it: its manifest
entry is untouched, its variant files remain present, and the first
variant's modification time is either unchanged or the run's clock. -/
theorem fresh_preserved (inputFS : InFS) (o0 : OutFS) (M0 : Manifest)
    (base : OutFS) (M1 : Manifest) (now1 : Nat) (f : String)
    (hment : mFind M1 f = mFind M0 f)
    (hpres : presAll o0 base)
    (hcases : ∀ n, fsFind base n = fsFind o0 n ∨ fsFind base n = some now1)
    (hmt : ∀ fi, fiFind inputFS f = some fi → fi.mtime ≤ now1)
    (hfresh : needsProcessing inputFS o0 M0 f = false) :
    needsProcessing inputFS base M1 f = false := by
  obtain ⟨e, v0, vs, fi, t0, hm, hvar, hall, hfi, hf0, hlt⟩ :=
    needsProcessing_false_elim inputFS o0 M0 f hfresh
  rcases hcases v0.path with hc | hc
  · refine needsProcessing_false_intro inputFS base M1 f e v0 vs fi t0
      (by rw [hment]; exact hm) hvar ?_ hfi (by rw [hc]; exact hf0) hlt
    intro v hv hnone
    have hp := hall v hv
    have hsome : (fsFind o0 v.path).isSome = true := by
      rcases ho : fsFind o0 v.path with _ | t
      · exact absurd ho hp
      · rfl
    have := hpres v.path hsome
    rw [hnone] at this
    exact absurd this (by simp)
  · refine needsProcessing_false_intro inputFS base M1 f e v0 vs fi now1
      (by rw [hment]; exact hm) hvar ?_ hfi hc
      (Nat.not_lt.mpr (hmt fi hfi))
    intro v hv hnone
    have hp := hall v hv
    have hsome : (fsFind o0 v.path).isSome = true := by
      rcases ho : fsFind o0 v.path with _ | t
      · exact absurd ho hp
      · rfl
    have := hpres v.path hsome
    rw [hnone] at this
    exact absurd this (by simp)

/-- Normal form of a guard-free incremental run over an existing input
directory with a successful scan. -/
theorem processAllImages_shape (cfg : Config) (inputFS : InFS) (now : Nat)
    (encodeOK : String → Bool) (files : List String) (o : OutFS)
    (M : Manifest) (E : Nat) :
    processAllImages cfg inputFS true (Except.ok files) now encodeOK false
        ⟨o, M, false, E⟩
      = if files.isEmpty then ⟨o, M, false, E⟩
        else if (files.filter (needsProcessing inputFS o M)).isEmpty
          then ⟨o, M, false, E⟩
        else
          ⟨(if cfg.generateManifest then
              fsWrite (runBatch cfg inputFS now encodeOK
                (files.filter (needsProcessing inputFS o M)) ⟨o, M, E⟩).outFS
                "manifest.json" now
            else (runBatch cfg inputFS now encodeOK
                (files.filter (needsProcessing inputFS o M)) ⟨o, M, E⟩).outFS),
            (runBatch cfg inputFS now encodeOK
              (files.filter (needsProcessing inputFS o M)) ⟨o, M, E⟩).manifest,
            false,
            (runBatch cfg inputFS now encodeOK
              (files.filter (needsProcessing inputFS o M)) ⟨o, M, E⟩).encodes⟩ := by
  by_cases hemp : files.isEmpty = true
  · simp [processAllImages, hemp]
  · have hemp' : files.isEmpty = false := by rw [Bool.eq_false_iff]; exact hemp
    by_cases hfp : (files.filter (needsProcessing inputFS o M)).isEmpty = true
    · simp [processAllImages, hemp', hfp]
    · have hfp' : (files.filter (needsProcessing inputFS o M)).isEmpty
          = false := by
        rw [Bool.eq_false_iff]; exact hfp
      simp [processAllImages, hemp', hfp']

/-- Claim C2: with no intervening file changes (the same input tree,
same discovered file list, all source modification times at or before
run 1's clock) and a codec that succeeds, running the incremental batch
(`processAll(false)`) twice in a row performs zero encode operations on
the second run: the encode counter after the second run equals the
counter after the first.  Every discovered Original is either FRESH
after run 1, or STALE with every retained variant output already on disk
and skipped without re-encoding (or with no retained width at all). -/
theorem claimC2 (cfg : Config) (inputFS : InFS) (files : List String)
    (now1 now2 : Nat) (encodeOK : String → Bool) (st0 : BatchState)
    (hmt : ∀ f fi, fiFind inputFS f = some fi → fi.mtime ≤ now1)
    (henc : ∀ n, encodeOK n = true) :
    (processAllImages cfg inputFS true (Except.ok files) now2 encodeOK false
        (processAllImages cfg inputFS true (Except.ok files) now1 encodeOK
          false st0)).encodes
      = (processAllImages cfg inputFS true (Except.ok files) now1 encodeOK
          false st0).encodes := by
  obtain ⟨o0, M0, b0, E0⟩ := st0
  cases b0 with
  | true =>
    have h1 : processAllImages cfg inputFS true (Except.ok files) now1 encodeOK
        false ⟨o0, M0, true, E0⟩ = ⟨o0, M0, true, E0⟩ := by
      simp [processAllImages]
    have h2 : processAllImages cfg inputFS true (Except.ok files) now2 encodeOK
        false ⟨o0, M0, true, E0⟩ = ⟨o0, M0, true, E0⟩ := by
      simp [processAllImages]
    rw [h1, h2]
  | false =>
    rw [processAllImages_shape cfg inputFS now1 encodeOK files o0 M0 E0]
    by_cases hemp : files.isEmpty = true
    · rw [if_pos hemp,
        processAllImages_shape cfg inputFS now2 encodeOK files o0 M0 E0,
        if_pos hemp]
    · rw [if_neg hemp]
      by_cases hfp1 : (files.filter (needsProcessing inputFS o0 M0)).isEmpty
          = true
      · rw [if_pos hfp1,
          processAllImages_shape cfg inputFS now2 encodeOK files o0 M0 E0,
          if_neg hemp, if_pos hfp1]
      · rw [if_neg hfp1]
        set filt1 := files.filter (needsProcessing inputFS o0 M0) with hfilt1def
        set ps1 := runBatch cfg inputFS now1 encodeOK filt1 ⟨o0, M0, E0⟩
          with hps1def
        set fs1 := (if cfg.generateManifest then
            fsWrite ps1.outFS "manifest.json" now1 else ps1.outFS) with hfs1def
        rw [processAllImages_shape cfg inputFS now2 encodeOK files fs1
          ps1.manifest ps1.encodes]
        rw [if_neg hemp]
        have hfs1_pres : presAll ps1.outFS fs1 := by
          intro n h
          rw [hfs1def]
          split
          · exact fsFind_write_isSome _ _ _ _ h
          · exact h
        have hfs1_cases : ∀ n, fsFind fs1 n = fsFind ps1.outFS n
            ∨ fsFind fs1 n = some now1 := by
          intro n
          rw [hfs1def]
          split
          · exact fsFind_write_cases _ _ _ _
          · left; rfl
        have hfs1_keepnow : ∀ n, fsFind ps1.outFS n = some now1 →
            fsFind fs1 n = some now1 := by
          intro n h
          rw [hfs1def]
          split
          · exact fsFind_write_now _ _ _ _ h
          · exact h
        have hzc : ∀ f ∈ files.filter (needsProcessing inputFS fs1 ps1.manifest),
            zeroCond cfg inputFS fs1 f := by
          intro f hf2
          have hfmem : f ∈ files := (List.mem_filter.mp hf2).1
          have hstale2 : needsProcessing inputFS fs1 ps1.manifest f = true :=
            (List.mem_filter.mp hf2).2
          intro fi m hfi hme hW hH
          by_cases hsel1 : needsProcessing inputFS o0 M0 f = true
          · have hmem1 : f ∈ filt1 := by
              rw [hfilt1def]
              exact List.mem_filter.mpr ⟨hfmem, hsel1⟩
            obtain ⟨hent, hpres, hnow⟩ := runBatch_entry_of_mem cfg inputFS now1
              encodeOK f fi m henc hfi hme hW hH filt1 ⟨o0, M0, E0⟩ hmem1
            exact after_processed cfg inputFS now1 fs1 ps1.manifest f fi m hfi
              hme hent
              (fun pr hpr => hfs1_pres _ (hpres pr hpr))
              (fun hsf pr hpr => hfs1_keepnow _ (hnow hsf pr hpr))
              (hmt f fi hfi) hstale2
          · exfalso
            have hfresh0 : needsProcessing inputFS o0 M0 f = false := by
              rw [Bool.eq_false_iff]; exact hsel1
            have hne : ∀ g ∈ filt1, g ≠ f := by
              intro g hg hgf
              subst hgf
              rw [hfilt1def] at hg
              exact hsel1 (List.mem_filter.mp hg).2
            have hment : mFind ps1.manifest f = mFind M0 f := by
              rw [hps1def]
              exact runBatch_manifest_of_ne cfg inputFS now1 encodeOK f filt1
                ⟨o0, M0, E0⟩ hne
            have hpres0 : presAll o0 fs1 := by
              refine presAll_trans ?_ hfs1_pres
              rw [hps1def]
              exact runBatch_presAll cfg inputFS now1 encodeOK filt1 ⟨o0, M0, E0⟩
            have hcases0 : ∀ n, fsFind fs1 n = fsFind o0 n
                ∨ fsFind fs1 n = some now1 := by
              intro n
              rcases hfs1_cases n with h1 | h1
              · rw [h1, hps1def]
                exact runBatch_outFS_cases cfg inputFS now1 encodeOK filt1
                  ⟨o0, M0, E0⟩ n
              · right; exact h1
            have hfresh1 := fresh_preserved inputFS o0 M0 fs1 ps1.manifest now1
              f hment hpres0 hcases0 (fun fi2 hfi2 => hmt f fi2 hfi2) hfresh0
            rw [hfresh1] at hstale2
            exact absurd hstale2 (by decide)
        by_cases hfp2 : (files.filter
            (needsProcessing inputFS fs1 ps1.manifest)).isEmpty = true
        · rw [if_pos hfp2]
        · rw [if_neg hfp2]
          show (runBatch cfg inputFS now2 encodeOK
            (files.filter (needsProcessing inputFS fs1 ps1.manifest))
            ⟨fs1, ps1.manifest, ps1.encodes⟩).encodes = ps1.encodes
          exact runBatch_encodes_zero cfg inputFS now2 encodeOK fs1
            (files.filter (needsProcessing inputFS fs1 ps1.manifest))
            ⟨fs1, ps1.manifest, ps1.encodes⟩ (fun n h => h) hzc

/-- Claim C2 witness: one original `a.jpg` (mtime 3, width 1000), clocks
10 then 20; the second incremental run performs zero encodes. -/
theorem claimC2_witness :
    ((∀ f fi, fiFind [("a.jpg", ⟨3, some ⟨1000, 500, some "jpeg"⟩⟩)] f
        = some fi → fi.mtime ≤ 10)
      ∧ (∀ n : String, (fun (_ : String) => true) n = true))
    ∧ (processAllImages ⟨["webp"], [320], 80, true, false, true⟩
        [("a.jpg", ⟨3, some ⟨1000, 500, some "jpeg"⟩⟩)] true
        (Except.ok ["a.jpg"]) 20 (fun _ => true) false
        (processAllImages ⟨["webp"], [320], 80, true, false, true⟩
          [("a.jpg", ⟨3, some ⟨1000, 500, some "jpeg"⟩⟩)] true
          (Except.ok ["a.jpg"]) 10 (fun _ => true) false
          ⟨[], [], false, 0⟩)).encodes
      = (processAllImages ⟨["webp"], [320], 80, true, false, true⟩
          [("a.jpg", ⟨3, some ⟨1000, 500, some "jpeg"⟩⟩)] true
          (Except.ok ["a.jpg"]) 10 (fun _ => true) false
          ⟨[], [], false, 0⟩).encodes := by
  have hmt : ∀ f fi, fiFind [("a.jpg", ⟨3, some ⟨1000, 500, some "jpeg"⟩⟩)] f
      = some fi → fi.mtime ≤ 10 := by
    intro f fi h
    cases hb : (("a.jpg" : String) == f) with
    | false =>
      have hnone : fiFind [("a.jpg",
          (⟨3, some ⟨1000, 500, some "jpeg"⟩⟩ : FileInfo))] f = none := by
        unfold fiFind
        rw [List.find?_cons_of_neg _ (by simp [hb])]
        rfl
      rw [hnone] at h
      exact Option.noConfusion h
    | true =>
      have hsome : fiFind [("a.jpg",
          (⟨3, some ⟨1000, 500, some "jpeg"⟩⟩ : FileInfo))] f
          = some ⟨3, some ⟨1000, 500, some "jpeg"⟩⟩ := by
        unfold fiFind
        rw [List.find?_cons_of_pos _ (by simp [hb])]
        rfl
      rw [hsome] at h
      injection h with h2
      rw [← h2]
      decide
  exact ⟨⟨hmt, fun _ => rfl⟩,
    claimC2 ⟨["webp"], [320], 80, true, false, true⟩
      [("a.jpg", ⟨3, some ⟨1000, 500, some "jpeg"⟩⟩)] ["a.jpg"] 10 20
      (fun _ => true) ⟨[], [], false, 0⟩ hmt (fun _ => rfl)⟩

example : variantMatch "hero-640w.webp" = some ("hero", 640, "webp") := by decide
example : variantMatch "a/b-12w.JPG" = some ("a/b", 12, "JPG") := by decide
example : variantMatch "hero.jpg" = none := by decide
example : variantMatch "-640w.webp" = none := by decide
example : variantMatch "x-3w-12w.webp" = some ("x-3w", 12, "webp") := by decide
example : getOutputFilename "a/b.jpg" 320 "webp" = "a/b-320w.webp" := by decide
example : getOutputFilename "noext" 320 "webp" = "noex-320w.webp" := by decide
example : isImageFile "photo.JPG" = true := by decide
example : isImageFile "noext" = false := by decide
example : variantHeight 320 1000 600 = 192 := by decide
example : variantHeight 333 1000 600 = 200 := by decide
